import Mathlib

/-!
Verification development for the trosces trail/beat core.

The Go sources are embedded shallowly:

* `Time` (beat coordinate, Go `float32`) is modelled as `WithTop ℚ`:
  exact rational beats extended with `⊤` for the `+Inf` produced by
  `Forever()`.  All comparisons/arithmetic used by the code are the
  standard ones on this order.
* Go pointers (`*Span`, `*SubSpan`) are modelled as indices into an
  explicit arena list, so aliasing between `Trail.buckets`,
  `Trail.activeSpans` and the `Subindex` bookkeeping is preserved.
* Go maps are modelled as association lists; `range` iteration order
  (unspecified in Go) is the list order.  `sort.Slice`/`sort.Ints`
  (unstable in Go, tie order unspecified) are modelled by a stable
  insertion sort with the non-strict key order.
* Wall-clock time (`time.Time`, in minutes) is a rational parameter;
  `Pulse.Now` etc. take it explicitly.
-/

set_option linter.unusedVariables false

/-- Beat-time coordinate: Go `Time{beat float32}` with `+Inf` as `⊤`. -/
abbrev Time := WithTop ℚ

/-- Beat length: Go `Duration{beats float32}`; `Forever()` is `⊤`. -/
abbrev Duration := WithTop ℚ

/-- Go `func Forever() Duration { return Duration{beats: Inf(1)} }`. -/
def Forever : Duration := ⊤

/-- Go `VisualSlack = Duration{beats: 1e-3}`. -/
def VisualSlack : ℚ := 1 / 1000

/-- Go `math.Trunc` (round toward zero) on a rational. -/
def ratTrunc (q : ℚ) : ℤ := if 0 ≤ q then ⌊q⌋ else ⌈q⌉

/-- Go `Time.Truncate(d)`: `Trunc(b/d)*d`, on finite beats (its only use:
`now.Truncate(bucketSize)` with `now` read from the clock, hence finite). -/
def truncateQ (b d : ℚ) : ℚ := (ratTrunc (b / d) : ℚ) * d

/-- Go `math.Round`: round half away from zero. -/
def goRound (x : ℚ) : ℤ := if 0 ≤ x then round x else -round (-x)

/-! ## Pulse (beat.go / the clock file with freezing) -/

/-- Go `Pulse{epoch time.Time; frozen Time; bpm float32}`.  `epoch` is
wall-clock minutes; `frozen` is a beat value, with `0` the "not frozen"
sentinel (`Time.IsZero`). -/
structure Pulse where
  epoch : ℚ
  frozen : ℚ
  bpm : ℚ
deriving DecidableEq, Repr

/-- Go `Pulse.Now()`: `(t - epoch).Minutes() * bpm` at wall-clock `t`. -/
def Pulse.Now (p : Pulse) (t : ℚ) : ℚ := (t - p.epoch) * p.bpm

/-- Go `Pulse.Sync(bpm)` at wall-clock `t`: snap the current beat to the
nearest whole beat, re-derive `epoch` so the snapped beat occurs at `t`,
then install the new bpm. -/
def Pulse.Sync (p : Pulse) (t : ℚ) (bpm : ℚ) : Pulse :=
  let oldBeat : ℚ := p.Now t
  let wantBeat : ℚ := (goRound oldBeat : ℤ)
  { epoch := t - wantBeat / bpm, frozen := p.frozen, bpm := bpm }

/-- Go `Pulse.ToggleFrozen()` at wall-clock `t`. -/
def Pulse.ToggleFrozen (p : Pulse) (t : ℚ) : Pulse :=
  if p.frozen = 0 then { p with frozen := p.Now t } else { p with frozen := 0 }

/-- Go `Pulse.Horizon()` at wall-clock `t`. -/
def Pulse.Horizon (p : Pulse) (t : ℚ) : ℚ :=
  if p.frozen = 0 then p.Now t else p.frozen

/-! ## Spans and SubSpans (trail.go) -/

/-- Go `Span{id, pos int; start, end Time}`.  A `*Span` is modelled as an
index into the list of spans owned by the caller (the `Trail` span heap,
or the argument list of `Subindex`). -/
structure Span where
  id : Int
  pos : Int
  start : Time
  «end» : Time
deriving DecidableEq, Repr

instance : Inhabited Span := ⟨⟨0, 0, 0, 0⟩⟩

/-- Go `Span.InRange(start, end)`. -/
def Span.InRange (s : Span) (a b : Time) : Bool :=
  if s.«end» < a then false
  else if b < s.start then false
  else true

/-- Go `SubSpan`; `span` is the parent-span pointer (an index). -/
structure SubSpan where
  span : Nat
  subindex : Int
  subindices : Int
  start : Time
  «end» : Time
  first : Bool
  last : Bool
deriving DecidableEq, Repr

instance : Inhabited SubSpan := ⟨⟨0, 0, 0, 0, 0, false, false⟩⟩

/-- Go `SubSpan.Validate()`, with the parent `*SubSpan.span` dereference
made explicit. -/
def SubSpan.Validate (s : SubSpan) (parent : Span) : Option String :=
  if parent.«end» < s.«end» then some "end after parent span"
  else if s.«end» < parent.start then some "end before start of parent span"
  else if parent.«end» < s.start then some "start after end of parent span"
  else if s.start < parent.start then some "start before parent span"
  else if s.subindices < 1 then some "subindices lower than 1"
  else if s.subindices ≤ s.subindex then some "subindex not below subindices"
  else none

/-- Go `SpanEvent{t Time; start bool; span *Span}`. -/
structure SpanEvent where
  t : Time
  start : Bool
  span : Nat
deriving DecidableEq, Repr

instance : IsTotal SpanEvent (fun a b => a.t ≤ b.t) := ⟨fun a b => le_total a.t b.t⟩

instance : IsTrans SpanEvent (fun a b => a.t ≤ b.t) :=
  ⟨fun _ _ _ h1 h2 => le_trans h1 h2⟩

/-! Association-list helpers standing in for Go maps.  Iteration order of a
Go map is unspecified; the model iterates in list order.  `alistSet`
overwrites the first binding in place, or appends a fresh one. -/

def alistGet? {κ β : Type} [DecidableEq κ] (l : List (κ × β)) (k : κ) : Option β :=
  (l.find? (fun e => e.1 = k)).map (·.2)

def alistSet {κ β : Type} [DecidableEq κ] (l : List (κ × β)) (k : κ) (v : β) :
    List (κ × β) :=
  if (l.find? (fun e => e.1 = k)).isSome then
    l.map (fun e => if e.1 = k then (k, v) else e)
  else l ++ [(k, v)]

def alistUpdate {κ β : Type} [DecidableEq κ] (l : List (κ × β)) (k : κ) (f : β → β) :
    List (κ × β) :=
  l.map (fun e => if e.1 = k then (e.1, f e.2) else e)

def alistErase {κ β : Type} [DecidableEq κ] (l : List (κ × β)) (k : κ) : List (κ × β) :=
  l.filter (fun e => ¬ e.1 = k)

/-- In-place update of the `i`-th element of a list (mutation through a
Go pointer/index); out-of-range indices leave the list unchanged. -/
def listModify {α : Type} (l : List α) (i : Nat) (f : α → α) : List α :=
  match l.get? i with
  | some x => l.set i (f x)
  | none => l

/-! ## The Subindex lane-packing sweep (trail.go `Subindex`) -/

/-- The events Go appends to `byPos[p]`: for each span of lane `p`, in
input order, a start event then an end event.  `i` is the index ("pointer")
of the head span. -/
def eventsFrom (i : Nat) (spans : List Span) (p : Int) : List SpanEvent :=
  match spans with
  | [] => []
  | s :: rest =>
      (if s.pos = p then [⟨s.start, true, i⟩, ⟨s.«end», false, i⟩] else [])
        ++ eventsFrom (i + 1) rest p

def eventsFor (spans : List Span) (p : Int) : List SpanEvent := eventsFrom 0 spans p

/-- First-occurrence order of the lanes of the input spans (the key set of
Go's `byPos`; its iteration order is unspecified, the model uses
first-appearance order). -/
def posOrder (spans : List Span) : List Int :=
  spans.foldl (fun acc s => if s.pos ∈ acc then acc else acc ++ [s.pos]) []

/-- State threaded through the sweep: the arena of produced `SubSpan`s (in
append order — Go's `subSpans` slice of pointers), the `active` map from
span pointer to its current SubSpan pointer, and `packTime`. -/
structure SweepState where
  subSpans : List SubSpan
  active : List (Nat × Nat)
  packTime : Time
deriving DecidableEq, Repr

/-- The repack loop `for i, subSpan := range ordered` inside `Subindex`:
`n = len(ordered)` is fixed before the loop, `evT` is the current event
time, `packT` the (resolved) pack time. -/
def repackLoop (evT packT : Time) (n : Int) :
    List SubSpan → List (Nat × Nat) → List Nat → Int → List SubSpan × List (Nat × Nat)
  | subs, act, [], _ => (subs, act)
  | subs, act, j :: rest, i =>
      let s := subs.getD j default
      if s.start < packT then
        -- finish the previous subspan at the current event ...
        let subs := listModify subs j (fun s0 => { s0 with «end» := evT })
        -- ... and open a new one for the same parent starting at packTime
        -- (its `end` is `Time{}` until overwritten; `subindex`/`subindices`
        -- are set right below, at creation in the model)
        let newIdx := subs.length
        let subs := subs ++
          [{ span := s.span, subindex := i, subindices := n,
             start := packT, «end» := 0, first := false, last := false }]
        let act := alistSet act s.span newIdx
        repackLoop evT packT n subs act rest (i + 1)
      else
        -- in any case, renumber the subspan
        let subs := listModify subs j (fun s0 => { s0 with subindex := i, subindices := n })
        repackLoop evT packT n subs act rest (i + 1)

/-- One iteration of `for i, event := range events`; `next?` is
`events[i+1].t` when it exists (for the coalescing check). -/
def sweepStep (spans : List Span) (st : SweepState) (ev : SpanEvent)
    (next? : Option Time) : SweepState :=
  let hadActive := st.active.length
  -- tentatively update the active set
  let st1 : SweepState :=
    if ev.start then
      let sp := spans.getD ev.span default
      let sub : SubSpan :=
        { span := ev.span, subindex := 0, subindices := 1,
          start := sp.start, «end» := sp.«end», first := true, last := false }
      { st with subSpans := st.subSpans ++ [sub],
                active := alistSet st.active ev.span st.subSpans.length }
    else
      match alistGet? st.active ev.span with
      | some j =>
          { st with
              subSpans := listModify st.subSpans j
                (fun s => { s with «end» := ev.t, last := true }),
              active := alistErase st.active ev.span }
      | none => st  -- in Go this dereferences a nil map entry; unreachable below
  -- potentially allow multiple changes before re-indexing
  let packTime := if st.packTime = 0 then ev.t else st.packTime
  let coalesce : Bool :=
    match next? with
    | some nt => decide (nt < packTime + (VisualSlack : ℚ))
    | none => false
  if coalesce then
    { st1 with packTime := packTime }
  else if hadActive = 0 ∧ st1.active.length = 0 then
    { st1 with packTime := packTime }
  else
    -- order and index current active subspans, by ascending parent id
    let ordered := List.insertionSort
      (fun j1 j2 =>
        (spans.getD (st1.subSpans.getD j1 default).span default).id ≤
          (spans.getD (st1.subSpans.getD j2 default).span default).id)
      (st1.active.map (·.2))
    let (subs, act) :=
      repackLoop ev.t packTime (ordered.length : Int) st1.subSpans st1.active ordered 0
    { subSpans := subs, active := act, packTime := 0 }

/-- `for i, event := range events` over one lane's sorted event list. -/
def sweepEvents (spans : List Span) (st : SweepState) : List SpanEvent → SweepState
  | [] => st
  | ev :: rest =>
      sweepEvents spans (sweepStep spans st ev ((rest.head?).map (·.t))) rest

/-- Go `Subindex(spans []*Span) []*SubSpan`. -/
def Subindex (spans : List Span) : List SubSpan :=
  let finalSt := (posOrder spans).foldl
    (fun st p =>
      sweepEvents spans st
        (List.insertionSort (fun a b => a.t ≤ b.t) (eventsFor spans p)))
    ⟨[], [], 0⟩
  finalSt.subSpans

/-! ## The Trail span store (trail.go) -/

/-- Go `SpanBucket`; `spans` holds span-heap indices (`[]*Span`).  The
bucket key/`start` is always produced by `Truncate` of a finite clock
reading, hence a plain rational. -/
structure SpanBucket where
  start : ℚ
  «end» : Time
  spans : List Nat
deriving DecidableEq, Repr

/-- Go `SpanBucket.UpdateEnd()`: recompute `end` as the running maximum of
the member spans' ends, starting from the zero `Time` (`var latest Time`). -/
def SpanBucket.UpdateEnd (heap : List Span) (bucket : SpanBucket) : SpanBucket :=
  { bucket with
      «end» := bucket.spans.foldl
        (fun latest i =>
          let s := heap.getD i default
          if latest < s.«end» then s.«end» else latest)
        (0 : Time) }

/-- Go `Trail`, restricted to the state the span store, active list,
cache-staleness tracking and pool operate on.  Rendered images are opaque
handles (`Nat`); rendering-only dimension fields that no modelled
operation reads are omitted.  `spanHeap` is the arena backing all `*Span`
pointers. -/
structure Trail where
  spanHeap : List Span
  buckets : List (ℚ × SpanBucket)
  activeSpans : List Nat
  minPos : Int
  maxPos : Int
  cached : List (ℚ × Nat)
  cachedReady : List (ℚ × Bool)
  grid : Option Nat
  gridReady : Bool
  unused : List Nat
  length : ℚ
  bucketSize : ℚ
  pulse : Pulse
deriving DecidableEq, Repr

/-- Go `NewTrail` (the cleanup goroutine is driven explicitly via
`Trail.cleanup`). -/
def NewTrail (bucketSize length : ℚ) (pulse : Pulse) : Trail :=
  { spanHeap := [], buckets := [], activeSpans := [],
    minPos := 0, maxPos := 0,
    cached := [], cachedReady := [], grid := none, gridReady := false,
    unused := [], length := length, bucketSize := bucketSize, pulse := pulse }

/-- Go `Trail.redrawBucket`. -/
def Trail.redrawBucket (trail : Trail) (bucketTime : ℚ) : Trail :=
  { trail with cachedReady := alistSet trail.cachedReady bucketTime false }

/-- Go `Trail.redrawAll`. -/
def Trail.redrawAll (trail : Trail) : Trail :=
  { trail with cachedReady := [], gridReady := false }

/-- Go `Trail.resetAll`: every cached artifact and the pool contents are
handed to deferred disposal (dropped from the state), then everything is
marked for redraw. -/
def Trail.resetAll (trail : Trail) : Trail :=
  Trail.redrawAll { trail with cached := [], grid := none, unused := [] }

/-- The lane-extent branch at the top of Go `Trail.Span`. -/
def Trail.spanExtent (trail : Trail) (pos : Int) : Trail :=
  if trail.buckets = [] then
    Trail.resetAll { trail with minPos := pos, maxPos := pos }
  else if pos < trail.minPos then
    Trail.resetAll { trail with minPos := pos }
  else if trail.maxPos < pos then
    Trail.resetAll { trail with maxPos := pos }
  else trail

/-- Go `Trail.Span(id, pos, d)`; `now` is the value the method reads from
`trail.pulse.Now()` on entry. -/
def Trail.Span (trail : Trail) (now : ℚ) (id pos : Int) (d : Duration) : Trail :=
  let bucketTime := truncateQ now trail.bucketSize
  let trail := trail.spanExtent pos
  let span := Span.mk id pos ((now : Time)) ((now : Time) + d)
  let spanIdx := trail.spanHeap.length
  let trail := { trail with spanHeap := trail.spanHeap ++ [span] }
  -- get-or-create the bucket and keep its end bound the max span end
  let trail :=
    match alistGet? trail.buckets bucketTime with
    | none =>
        let fresh : SpanBucket := { start := bucketTime, «end» := span.«end», spans := [] }
        { trail with buckets := alistSet trail.buckets bucketTime fresh }
    | some bucket =>
        if bucket.«end» < span.«end» then
          let grown : SpanBucket := { bucket with «end» := span.«end» }
          { trail with buckets := alistSet trail.buckets bucketTime grown }
        else trail
  -- invalidate the cached bucket image, then track the span
  let trail := trail.redrawBucket bucketTime
  let track := fun (b : SpanBucket) => { b with spans := b.spans ++ [spanIdx] }
  let trail := { trail with buckets := alistUpdate trail.buckets bucketTime track }
  { trail with activeSpans := trail.activeSpans ++ [spanIdx] }

/-- The search in Go `Trail.Stop`: walk the buckets (map iteration order:
list order), skip buckets fully in the past, and return the key of the
bucket together with the heap index of the first span matching
`(id, pos)` that is still open at `now`. -/
def findStopSpan (heap : List Span) (now : ℚ) (id pos : Int) :
    List (ℚ × SpanBucket) → Option (ℚ × Nat)
  | [] => none
  | (k, b) :: rest =>
      if b.«end» < (now : Time) then findStopSpan heap now id pos rest
      else
        match b.spans.find? (fun i =>
            let s := heap.getD i default
            s.id = id ∧ s.pos = pos ∧ (now : Time) < s.«end») with
        | some i => some (k, i)
        | none => findStopSpan heap now id pos rest

/-- Go `Trail.Stop(id, pos)`; `now` is the value read from
`trail.pulse.Now()` on entry. -/
def Trail.Stop (trail : Trail) (now : ℚ) (id pos : Int) : Trail :=
  match findStopSpan trail.spanHeap now id pos trail.buckets with
  | none => trail
  | some (k, i) =>
      let heap := listModify trail.spanHeap i (fun s => { s with «end» := (now : Time) })
      let trail := { trail with spanHeap := heap }
      let trail := trail.redrawBucket (truncateQ now trail.bucketSize)
      { trail with buckets := alistUpdate trail.buckets k (fun b => b.UpdateEnd heap) }

/-- The first-seen deduplication performed by the `activeMap` set in Go
`Trail.ActivePos`. -/
def dedupFirstAux (seen : List Int) : List Int → List Int
  | [] => []
  | x :: xs => if x ∈ seen then dedupFirstAux seen xs else x :: dedupFirstAux (x :: seen) xs

def dedupFirst (l : List Int) : List Int := dedupFirstAux [] l

/-- Go `Trail.ActivePos()`: lazily prune the active list (the only place
entries leave it), collect the distinct lanes still active at `now`, and
return them sorted (`sort.Ints`).  Returns the result list together with
the pruned trail. -/
def Trail.ActivePos (trail : Trail) (now : ℚ) : List Int × Trail :=
  let remaining := trail.activeSpans.filter
    (fun i => (trail.spanHeap.getD i default).InRange (now : Time) (now : Time))
  let active := dedupFirst (remaining.map (fun i => (trail.spanHeap.getD i default).pos))
  (List.insertionSort (· ≤ ·) active, { trail with activeSpans := remaining })

/-- Go `Trail.cleanup()`; `now` is the value read from
`trail.pulse.Horizon()` on entry.  Expired buckets are dropped; cached
images of expired buckets move to the reuse pool. -/
def Trail.cleanup (trail : Trail) (now : ℚ) : Trail :=
  let cutoff : Time := ((now - trail.length : ℚ) : Time)
  let trail := { trail with
    buckets := trail.buckets.filter (fun e => ¬ e.2.«end» < cutoff) }
  let freed := trail.cached.filter
    (fun e => (((e.1 + trail.bucketSize : ℚ) : Time) < cutoff))
  { trail with
      cached := trail.cached.filter
        (fun e => ¬ (((e.1 + trail.bucketSize : ℚ) : Time) < cutoff)),
      unused := trail.unused ++ freed.map (·.2) }

/-- `Trail.Span` as called in Go, reading `now := trail.pulse.Now()` at
wall-clock `t` — never `Horizon()`. -/
def Trail.SpanClock (trail : Trail) (t : ℚ) (id pos : Int) (d : Duration) : Trail :=
  trail.Span (trail.pulse.Now t) id pos d

/-- `Trail.Stop` as called in Go, reading `now := trail.pulse.Now()` at
wall-clock `t` — never `Horizon()`. -/
def Trail.StopClock (trail : Trail) (t : ℚ) (id pos : Int) : Trail :=
  trail.Stop (trail.pulse.Now t) id pos

/-- The read Go performs on `trail.cachedReady[bucketTime]` (a missing key
reads as `false`, i.e. stale). -/
def Trail.readyAt (trail : Trail) (k : ℚ) : Bool :=
  (alistGet? trail.cachedReady k).getD false

/-! Concrete states used to evaluate the claims on explicit inputs. -/

/-- A 60-bpm pulse at epoch 0, unfrozen. -/
def pulseDemo : Pulse := ⟨0, 0, 60⟩

/-- A trail with two open spans of category 0 in lane 0 inside the bucket
at time 0: span 0 was appended first and starts at `0.1`, span 1 was
appended second and starts at `0.2`; both end at `1.5`. -/
def stopDemoTrail : Trail :=
  { spanHeap :=
      [⟨0, 0, ((1/10 : ℚ) : Time), ((3/2 : ℚ) : Time)⟩,
       ⟨0, 0, ((1/5 : ℚ) : Time), ((3/2 : ℚ) : Time)⟩],
    buckets := [(0, ⟨0, ((3/2 : ℚ) : Time), [0, 1]⟩)],
    activeSpans := [0, 1],
    minPos := 0, maxPos := 0,
    cached := [], cachedReady := [], grid := none, gridReady := false,
    unused := [], length := 4, bucketSize := 1, pulse := pulseDemo }

/-- A trail with lane extent `[0,0]`, one bucket, and one cached artifact
(handle `7`) for the bucket at time 0. -/
def resetDemoTrail : Trail :=
  { spanHeap := [⟨0, 0, ((0 : ℚ) : Time), ((1 : ℚ) : Time)⟩],
    buckets := [(0, ⟨0, ((1 : ℚ) : Time), [0]⟩)],
    activeSpans := [0],
    minPos := 0, maxPos := 0,
    cached := [(0, 7)], cachedReady := [(0, true)], grid := some 3, gridReady := true,
    unused := [], length := 4, bucketSize := 1, pulse := pulseDemo }

/-- A trail holding one open-ended (`Forever`) span in lane 5. -/
def foreverDemoTrail : Trail :=
  (NewTrail 1 4 pulseDemo).Span (1/2) 0 5 Forever

/-! Invariants of the `Subindex` sweep, used to prove that every produced
`SubSpan` validates against its parent. -/

/-- Bounds every subspan in the arena satisfies at all times: the parent
exists, the subspan's start lies inside the parent's range, and its
packing indices are consistent. -/
def BaseOK (spans : List Span) (s : SubSpan) : Prop :=
  ∃ p, spans.get? s.span = some p ∧
    p.start ≤ s.start ∧ s.start ≤ p.«end» ∧
    1 ≤ s.subindices ∧ s.subindex < s.subindices

/-- Additional bound a subspan satisfies once it is no longer referenced
by the active map: its end also lies inside the parent's range. -/
def EndOK (spans : List Span) (s : SubSpan) : Prop :=
  ∃ p, spans.get? s.span = some p ∧ p.start ≤ s.«end» ∧ s.«end» ≤ p.«end»

/-- Every arena entry not referenced by the active map is fully bounded. -/
def ClosedOK (spans : List Span) (st : SweepState) : Prop :=
  ∀ j, j < st.subSpans.length → (¬ ∃ e ∈ st.active, e.2 = j) →
    EndOK spans (st.subSpans.getD j default)

/-- Structural well-formedness of the active map: distinct keys, distinct
values, values inside the arena. -/
def ActiveWF (st : SweepState) : Prop :=
  (st.active.map Prod.fst).Nodup ∧ (st.active.map Prod.snd).Nodup ∧
  ∀ e ∈ st.active, e.2 < st.subSpans.length

/-- Every active entry points at a subspan of its span, and exactly that
span's end event is still pending in the remaining event list. -/
def ActiveOK (spans : List Span) (st : SweepState) (evs : List SpanEvent) : Prop :=
  ∀ sp j, (sp, j) ∈ st.active →
    (st.subSpans.getD j default).span = sp ∧
    ∃ p, spans.get? sp = some p ∧
      evs.filter (fun e => e.span = sp) = [⟨p.«end», false, sp⟩]

/-- A span not in the active map either has no remaining events, or has
exactly its start-then-end event pair remaining. -/
def InactiveOK (spans : List Span) (st : SweepState) (evs : List SpanEvent) : Prop :=
  ∀ sp, alistGet? st.active sp = none →
    evs.filter (fun e => e.span = sp) = [] ∨
    ∃ p, spans.get? sp = some p ∧
      evs.filter (fun e => e.span = sp) =
        [⟨p.start, true, sp⟩, ⟨p.«end», false, sp⟩]

/-- The part of the sweep invariant that does not mention `packTime`:
arena bounds, closed-entry bounds, active-map well-formedness and pending
end events, relative to the remaining events `rest`. -/
def SweepCore (spans : List Span) (subs : List SubSpan)
    (act : List (Nat × Nat)) (rest : List SpanEvent) : Prop :=
  (∀ j, j < subs.length → BaseOK spans (subs.getD j default)) ∧
  ClosedOK spans ⟨subs, act, 0⟩ ∧
  ActiveWF ⟨subs, act, 0⟩ ∧
  ActiveOK spans ⟨subs, act, 0⟩ rest

/-- `packTime` is zero, or events remain and it bounds them from below. -/
def PackOK (st : SweepState) (evs : List SpanEvent) : Prop :=
  st.packTime = 0 ∨ (¬ evs = [] ∧ ∀ e ∈ evs, st.packTime ≤ e.t)

/-- The full sweep invariant, relative to the remaining event list. -/
def SweepInv (spans : List Span) (st : SweepState) (evs : List SpanEvent) : Prop :=
  (∀ j, j < st.subSpans.length → BaseOK spans (st.subSpans.getD j default)) ∧
  ClosedOK spans st ∧
  ActiveWF st ∧
  ActiveOK spans st evs ∧
  InactiveOK spans st evs ∧
  PackOK st evs ∧
  List.Pairwise (fun a b => a.t ≤ b.t) evs

/-- The two partially-overlapping spans of the `Subindex` partial-overlap
scenario: same lane, ids 0 and 1, ranges `[0, 0.8]` and `[0.2, 1.0]`. -/
def subindexDemoSpans : List Span :=
  [⟨0, 0, ((0 : ℚ) : Time), ((4/5 : ℚ) : Time)⟩,
   ⟨1, 0, ((1/5 : ℚ) : Time), ((1 : ℚ) : Time)⟩]

/-! # Theorems -/

/-! ## Rounding helpers -/

theorem goRound_intCast (n : ℤ) : goRound (n : ℚ) = n := by
  unfold goRound
  split_ifs with h
  · exact round_intCast n
  · rw [show (-(n : ℚ)) = ((-n : ℤ) : ℚ) by push_cast; ring, round_intCast]
    ring

theorem abs_goRound_sub (x : ℚ) : |(goRound x : ℚ) - x| ≤ 1 / 2 := by
  unfold goRound
  split_ifs with h
  · rw [abs_sub_comm]
    exact abs_sub_round x
  · have h2 := abs_sub_round (-x)
    rw [abs_sub_comm] at h2
    push_cast
    calc |-(round (-x) : ℚ) - x| = |(round (-x) : ℚ) - (-x)| := by rw [← abs_neg]; ring_nf
    _ ≤ 1 / 2 := h2

/-- C7: after `Sync(bpm)` with `bpm > 0` the observed beat equals the
pre-call beat rounded to the nearest whole beat (so it moved by at most
half a beat, in particular by less than one), and an immediately repeated
`Sync` with the same bpm leaves `Now()` unchanged — in particular it
changes `Now()` by less than one beat. -/
theorem pulse_sync_beat_continuous (p : Pulse) (t bpm : ℚ) (hb : 0 < bpm) :
    (p.Sync t bpm).Now t = ((goRound (p.Now t) : ℤ) : ℚ) ∧
    |(p.Sync t bpm).Now t - p.Now t| < 1 ∧
    ((p.Sync t bpm).Sync t bpm).Now t = (p.Sync t bpm).Now t ∧
    |((p.Sync t bpm).Sync t bpm).Now t - (p.Sync t bpm).Now t| < 1 := by
  have hbpm : bpm ≠ 0 := ne_of_gt hb
  have hval : ∀ q : Pulse, (q.Sync t bpm).Now t = ((goRound (q.Now t) : ℤ) : ℚ) := by
    intro q
    show (t - (t - (goRound (q.Now t) : ℚ) / bpm)) * bpm = _
    field_simp
  refine ⟨hval p, ?_, ?_, ?_⟩
  · rw [hval p]
    exact lt_of_le_of_lt (abs_goRound_sub (p.Now t)) (by norm_num)
  · rw [hval (p.Sync t bpm), hval p, goRound_intCast]
  · rw [hval (p.Sync t bpm), hval p, goRound_intCast]
    simp

/-- Witness for `pulse_sync_beat_continuous` at `p = ⟨0,0,1⟩`, `t = 3/2`,
`bpm = 2`. -/
theorem pulse_sync_beat_continuous_witness :
    (Pulse.Sync ⟨0, 0, 1⟩ (3/2) 2).Now (3/2) =
      ((goRound (Pulse.Now ⟨0, 0, 1⟩ (3/2)) : ℤ) : ℚ) :=
  (pulse_sync_beat_continuous ⟨0, 0, 1⟩ (3/2) 2 (by norm_num)).1

/-! ## Structural facts about `Trail.Span` and `Trail.Stop` -/

theorem spanExtent_spanHeap (trail : Trail) (pos : Int) :
    (trail.spanExtent pos).spanHeap = trail.spanHeap := by
  unfold Trail.spanExtent Trail.resetAll Trail.redrawAll
  split_ifs <;> rfl

theorem spanExtent_activeSpans (trail : Trail) (pos : Int) :
    (trail.spanExtent pos).activeSpans = trail.activeSpans := by
  unfold Trail.spanExtent Trail.resetAll Trail.redrawAll
  split_ifs <;> rfl

/-- `Trail.Span` appends exactly the span `{id, pos, now, now + d}` to the
span heap. -/
theorem Span_spanHeap (trail : Trail) (now : ℚ) (id pos : Int) (d : Duration) :
    (trail.Span now id pos d).spanHeap =
      trail.spanHeap ++ [Span.mk id pos (now : Time) ((now : Time) + d)] := by
  unfold Trail.Span
  dsimp only
  split
  · simp [Trail.redrawBucket, spanExtent_spanHeap]
  · split_ifs <;> simp [Trail.redrawBucket, spanExtent_spanHeap]

/-- `Trail.Span` appends exactly the new heap index to the active list. -/
theorem Span_activeSpans (trail : Trail) (now : ℚ) (id pos : Int) (d : Duration) :
    (trail.Span now id pos d).activeSpans =
      trail.activeSpans ++ [trail.spanHeap.length] := by
  unfold Trail.Span
  dsimp only
  split
  · simp [Trail.redrawBucket, spanExtent_activeSpans, spanExtent_spanHeap]
  · split_ifs <;> simp [Trail.redrawBucket, spanExtent_activeSpans, spanExtent_spanHeap]

/-! ## C8: freezing the pulse -/

/-- C8 counterexample: `frozen = 0` is also the "unfrozen" sentinel, so
toggling an unfrozen pulse whose current beat is exactly `0` does not
freeze it — a later `Horizon()` keeps advancing instead of returning the
captured value. -/
theorem pulse_freeze_capture_cex :
    (Pulse.mk 0 0 1).frozen = 0 ∧
    (Pulse.ToggleFrozen ⟨0, 0, 1⟩ 0).Horizon 1 ≠ Pulse.Now ⟨0, 0, 1⟩ 0 := by
  refine ⟨rfl, ?_⟩
  norm_num [Pulse.ToggleFrozen, Pulse.Horizon, Pulse.Now]

/-- C8 (amended): on an unfrozen pulse whose current beat is nonzero,
`ToggleFrozen` captures `Now()` so every later `Horizon()` returns exactly
the captured value; a second toggle makes `Horizon()` track `Now()` again;
toggling never changes `Now()`; and `Trail.Span`/`Trail.Stop` read their
timestamps from `Now()`, never from `Horizon()`, so freezing does not
affect stored span timestamps. -/
theorem pulse_freeze_spec (p : Pulse) (t0 : ℚ) (hfr : p.frozen = 0)
    (hnz : p.Now t0 ≠ 0) :
    (∀ t, (p.ToggleFrozen t0).Horizon t = p.Now t0) ∧
    (∀ t, (p.ToggleFrozen t0).Now t = p.Now t) ∧
    (∀ t1 t, ((p.ToggleFrozen t0).ToggleFrozen t1).Horizon t = p.Now t) ∧
    (∀ (trail : Trail) (t : ℚ) (id pos : Int) (d : Duration),
      trail.pulse = p.ToggleFrozen t0 →
      (trail.SpanClock t id pos d).spanHeap =
        trail.spanHeap ++ [Span.mk id pos ((p.Now t : ℚ) : Time) (((p.Now t : ℚ) : Time) + d)]) ∧
    (∀ (trail : Trail) (t : ℚ) (id pos : Int),
      trail.pulse = p.ToggleFrozen t0 →
      trail.StopClock t id pos = trail.Stop (p.Now t) id pos) := by
  have hfrozen : p.ToggleFrozen t0 = { p with frozen := p.Now t0 } := by
    unfold Pulse.ToggleFrozen
    rw [if_pos hfr]
  have hnow : ∀ t, (p.ToggleFrozen t0).Now t = p.Now t := by
    intro t
    rw [hfrozen]
    rfl
  refine ⟨?_, hnow, ?_, ?_, ?_⟩
  · intro t
    rw [hfrozen]
    unfold Pulse.Horizon
    rw [if_neg hnz]
  · intro t1 t
    rw [hfrozen]
    unfold Pulse.ToggleFrozen
    rw [if_neg hnz]
    unfold Pulse.Horizon
    rw [if_pos rfl]
    rfl
  · intro trail t id pos d htr
    unfold Trail.SpanClock
    rw [htr, hnow, Span_spanHeap]
  · intro trail t id pos htr
    unfold Trail.StopClock
    rw [htr, hnow]

/-- Witness for `pulse_freeze_spec`: freezing `⟨0,0,1⟩` at wall-clock `2`
(beat `2 ≠ 0`) pins `Horizon` at beat `2` even at wall-clock `5`. -/
theorem pulse_freeze_spec_witness :
    (Pulse.ToggleFrozen ⟨0, 0, 1⟩ 2).Horizon 5 = Pulse.Now ⟨0, 0, 1⟩ 2 :=
  (pulse_freeze_spec ⟨0, 0, 1⟩ 2 rfl (by norm_num [Pulse.Now])).1 5

/-! ## C1: the partial-overlap Subindex scenario, step by step -/

theorem subindexDemo_events :
    List.insertionSort (fun a b => a.t ≤ b.t) (eventsFor subindexDemoSpans 0) =
      [⟨((0:ℚ):Time), true, 0⟩, ⟨((1/5:ℚ):Time), true, 1⟩,
       ⟨((4/5:ℚ):Time), false, 0⟩, ⟨((1:ℚ):Time), false, 1⟩] := by
  norm_num [subindexDemoSpans, eventsFor, eventsFrom,
    List.insertionSort, List.orderedInsert, WithTop.coe_le_coe]

theorem subindexDemo_step0 :
    sweepStep subindexDemoSpans ⟨[], [], 0⟩ ⟨((0:ℚ):Time), true, 0⟩ (some ((1/5:ℚ):Time)) =
      ⟨[⟨0, 0, 1, ((0:ℚ):Time), ((4/5:ℚ):Time), true, false⟩], [(0, 0)], ((0:ℚ):Time)⟩ := by
  norm_num [sweepStep, subindexDemoSpans, repackLoop, alistGet?, alistSet, alistErase,
    listModify, VisualSlack, List.insertionSort, List.orderedInsert,
    ← WithTop.coe_add, WithTop.coe_lt_coe, WithTop.coe_le_coe, WithTop.coe_eq_coe]

theorem subindexDemo_step1 :
    sweepStep subindexDemoSpans
      ⟨[⟨0, 0, 1, ((0:ℚ):Time), ((4/5:ℚ):Time), true, false⟩], [(0, 0)], ((0:ℚ):Time)⟩
      ⟨((1/5:ℚ):Time), true, 1⟩ (some ((4/5:ℚ):Time)) =
      ⟨[⟨0, 0, 1, ((0:ℚ):Time), ((1/5:ℚ):Time), true, false⟩,
        ⟨1, 1, 2, ((1/5:ℚ):Time), ((1:ℚ):Time), true, false⟩,
        ⟨0, 0, 2, ((1/5:ℚ):Time), ((0:ℚ):Time), false, false⟩],
       [(0, 2), (1, 1)], ((0:ℚ):Time)⟩ := by
  norm_num [sweepStep, subindexDemoSpans, repackLoop, alistGet?, alistSet, alistErase,
    listModify, VisualSlack, List.insertionSort, List.orderedInsert,
    ← WithTop.coe_add, WithTop.coe_lt_coe, WithTop.coe_le_coe, WithTop.coe_eq_coe]

theorem subindexDemo_step2 :
    sweepStep subindexDemoSpans
      ⟨[⟨0, 0, 1, ((0:ℚ):Time), ((1/5:ℚ):Time), true, false⟩,
        ⟨1, 1, 2, ((1/5:ℚ):Time), ((1:ℚ):Time), true, false⟩,
        ⟨0, 0, 2, ((1/5:ℚ):Time), ((0:ℚ):Time), false, false⟩],
       [(0, 2), (1, 1)], ((0:ℚ):Time)⟩
      ⟨((4/5:ℚ):Time), false, 0⟩ (some ((1:ℚ):Time)) =
      ⟨[⟨0, 0, 1, ((0:ℚ):Time), ((1/5:ℚ):Time), true, false⟩,
        ⟨1, 1, 2, ((1/5:ℚ):Time), ((4/5:ℚ):Time), true, false⟩,
        ⟨0, 0, 2, ((1/5:ℚ):Time), ((4/5:ℚ):Time), false, true⟩,
        ⟨1, 0, 1, ((4/5:ℚ):Time), ((0:ℚ):Time), false, false⟩],
       [(1, 3)], ((0:ℚ):Time)⟩ := by
  norm_num [sweepStep, subindexDemoSpans, repackLoop, alistGet?, alistSet, alistErase,
    listModify, VisualSlack, List.insertionSort, List.orderedInsert,
    ← WithTop.coe_add, WithTop.coe_lt_coe, WithTop.coe_le_coe, WithTop.coe_eq_coe]

theorem subindexDemo_step3 :
    sweepStep subindexDemoSpans
      ⟨[⟨0, 0, 1, ((0:ℚ):Time), ((1/5:ℚ):Time), true, false⟩,
        ⟨1, 1, 2, ((1/5:ℚ):Time), ((4/5:ℚ):Time), true, false⟩,
        ⟨0, 0, 2, ((1/5:ℚ):Time), ((4/5:ℚ):Time), false, true⟩,
        ⟨1, 0, 1, ((4/5:ℚ):Time), ((0:ℚ):Time), false, false⟩],
       [(1, 3)], ((0:ℚ):Time)⟩
      ⟨((1:ℚ):Time), false, 1⟩ none =
      ⟨[⟨0, 0, 1, ((0:ℚ):Time), ((1/5:ℚ):Time), true, false⟩,
        ⟨1, 1, 2, ((1/5:ℚ):Time), ((4/5:ℚ):Time), true, false⟩,
        ⟨0, 0, 2, ((1/5:ℚ):Time), ((4/5:ℚ):Time), false, true⟩,
        ⟨1, 0, 1, ((4/5:ℚ):Time), ((1:ℚ):Time), false, true⟩],
       [], ((0:ℚ):Time)⟩ := by
  norm_num [sweepStep, subindexDemoSpans, repackLoop, alistGet?, alistSet, alistErase,
    listModify, VisualSlack, List.insertionSort, List.orderedInsert,
    ← WithTop.coe_add, WithTop.coe_lt_coe, WithTop.coe_le_coe, WithTop.coe_eq_coe]

theorem subindexDemo_value :
    Subindex subindexDemoSpans =
      [⟨0, 0, 1, ((0:ℚ):Time), ((1/5:ℚ):Time), true, false⟩,
       ⟨1, 1, 2, ((1/5:ℚ):Time), ((4/5:ℚ):Time), true, false⟩,
       ⟨0, 0, 2, ((1/5:ℚ):Time), ((4/5:ℚ):Time), false, true⟩,
       ⟨1, 0, 1, ((4/5:ℚ):Time), ((1:ℚ):Time), false, true⟩] := by
  have hpos : posOrder subindexDemoSpans = [0] := by
    norm_num [posOrder, subindexDemoSpans]
  unfold Subindex
  rw [hpos]
  show (sweepEvents subindexDemoSpans ⟨[], [], 0⟩
      (List.insertionSort (fun a b => a.t ≤ b.t) (eventsFor subindexDemoSpans 0))).subSpans = _
  rw [subindexDemo_events]
  rw [sweepEvents, sweepEvents, sweepEvents, sweepEvents, sweepEvents]
  simp only [List.head?, Option.map]
  rw [subindexDemo_step0, subindexDemo_step1, subindexDemo_step2, subindexDemo_step3]

/-- C1: on two same-lane spans `id 0: [0, 0.8]` and `id 1: [0.2, 1.0]`,
`Subindex` returns exactly the four SubSpans
`(id 0, [0, 0.2], 0 of 1, first, not last)`,
`(id 1, [0.2, 0.8], 1 of 2, first, not last)`,
`(id 0, [0.2, 0.8], 0 of 2, not first, last)`,
`(id 1, [0.8, 1.0], 0 of 1, not first, last)`; each parent's SubSpans
tile its `[start, end]` with no gaps or overlaps, and `subindices` is 2
exactly on the overlap `[0.2, 0.8]` and 1 elsewhere. -/
theorem subindex_partial_overlap_spec :
    Subindex subindexDemoSpans =
      [⟨0, 0, 1, ((0:ℚ):Time), ((1/5:ℚ):Time), true, false⟩,
       ⟨1, 1, 2, ((1/5:ℚ):Time), ((4/5:ℚ):Time), true, false⟩,
       ⟨0, 0, 2, ((1/5:ℚ):Time), ((4/5:ℚ):Time), false, true⟩,
       ⟨1, 0, 1, ((4/5:ℚ):Time), ((1:ℚ):Time), false, true⟩] ∧
    ((Subindex subindexDemoSpans).filter (fun s => s.span = 0)).map
        (fun s => (s.start, s.«end»)) =
      [(((0:ℚ):Time), ((1/5:ℚ):Time)), (((1/5:ℚ):Time), ((4/5:ℚ):Time))] ∧
    ((Subindex subindexDemoSpans).filter (fun s => s.span = 1)).map
        (fun s => (s.start, s.«end»)) =
      [(((1/5:ℚ):Time), ((4/5:ℚ):Time)), (((4/5:ℚ):Time), ((1:ℚ):Time))] ∧
    (∀ s ∈ Subindex subindexDemoSpans,
      (s.subindices = 2 ↔ s.start = ((1/5:ℚ):Time) ∧ s.«end» = ((4/5:ℚ):Time)) ∧
      (s.subindices = 1 ↔ ¬(s.start = ((1/5:ℚ):Time) ∧ s.«end» = ((4/5:ℚ):Time)))) := by
  refine ⟨subindexDemo_value, ?_, ?_, ?_⟩
  · rw [subindexDemo_value]
    norm_num [WithTop.coe_eq_coe]
  · rw [subindexDemo_value]
    norm_num [WithTop.coe_eq_coe]
  · rw [subindexDemo_value]
    intro s hs
    simp only [List.mem_cons, List.not_mem_nil, or_false] at hs
    rcases hs with h | h | h | h <;> subst h <;>
      constructor <;> constructor <;> norm_num [WithTop.coe_eq_coe]

/-! ## C6: Stop with no matching open span is a no-op -/

theorem findStopSpan_eq_none (heap : List Span) (now : ℚ) (id pos : Int)
    (bs : List (ℚ × SpanBucket))
    (h : ∀ kb ∈ bs, ∀ i ∈ kb.2.spans,
      ¬((heap.getD i default).id = id ∧ (heap.getD i default).pos = pos ∧
        (now : Time) < (heap.getD i default).«end»)) :
    findStopSpan heap now id pos bs = none := by
  induction bs with
  | nil => rfl
  | cons kb rest ih =>
    obtain ⟨k, b⟩ := kb
    have hrest : findStopSpan heap now id pos rest = none :=
      ih (fun kb hkb => h kb (List.mem_cons_of_mem _ hkb))
    unfold findStopSpan
    split_ifs with hend
    · exact hrest
    · have hfind : b.spans.find? (fun i =>
          (heap.getD i default).id = id ∧ (heap.getD i default).pos = pos ∧
          (now : Time) < (heap.getD i default).«end») = none := by
        rw [List.find?_eq_none]
        intro i hi
        simpa using h (k, b) (List.mem_cons_self _ _) i hi
      rw [hfind]
      exact hrest

/-- C6: if no span in any bucket matches `(id, pos)` and is still open at
`now`, then `Stop(id, pos)` leaves the trail — bucket map, every bucket's
spans and end bound, span heap, active list and all staleness flags —
completely unchanged. -/
theorem stop_no_match_noop (trail : Trail) (now : ℚ) (id pos : Int)
    (h : ∀ kb ∈ trail.buckets, ∀ i ∈ kb.2.spans,
      ¬((trail.spanHeap.getD i default).id = id ∧
        (trail.spanHeap.getD i default).pos = pos ∧
        (now : Time) < (trail.spanHeap.getD i default).«end»)) :
    trail.Stop now id pos = trail := by
  unfold Trail.Stop
  rw [findStopSpan_eq_none trail.spanHeap now id pos trail.buckets h]

/-- Witness for `stop_no_match_noop`: stopping `(id,pos) = (1,5)` on a
trail whose only span has id `0` changes nothing. -/
theorem stop_no_match_noop_witness :
    ((NewTrail 1 4 pulseDemo).Span (1/2) 0 5 ((1 : ℚ) : Duration)).Stop (3/4) 1 5 =
      (NewTrail 1 4 pulseDemo).Span (1/2) 0 5 ((1 : ℚ) : Duration) := by
  apply stop_no_match_noop
  intro kb hkb i hi
  have hb : kb ∈ [((0 : ℚ),
      SpanBucket.mk 0 (((3/2 : ℚ)) : Time) [0])] := by
    revert hkb
    norm_num [Trail.Span, Trail.spanExtent, Trail.resetAll, Trail.redrawAll,
      Trail.redrawBucket, NewTrail, alistGet?, alistSet, alistUpdate, truncateQ,
      ratTrunc, ← WithTop.coe_one, ← WithTop.coe_add, WithTop.coe_lt_coe,
      WithTop.coe_eq_coe]
  simp only [List.mem_singleton] at hb
  subst hb
  simp only [List.mem_singleton] at hi
  subst hi
  norm_num [Trail.Span, Trail.spanExtent, Trail.resetAll, Trail.redrawAll,
    Trail.redrawBucket, NewTrail, alistGet?, alistSet, alistUpdate]

/-! ## Association-list and list-mutation lemmas -/

theorem find?_first {α : Type} (p : α → Bool) (l1 : List α) (x : α) (l2 : List α)
    (h1 : ∀ y ∈ l1, ¬ p y = true) (hx : p x = true) :
    List.find? p (l1 ++ x :: l2) = some x := by
  induction l1 with
  | nil => simp [List.find?_cons, hx]
  | cons a as ih =>
    have ha : ¬ p a = true := h1 a (List.mem_cons_self _ _)
    rw [List.cons_append, List.find?_cons]
    simp only [Bool.not_eq_true] at ha
    rw [ha]
    exact ih (fun y hy => h1 y (List.mem_cons_of_mem _ hy))


theorem alistGet?_cons {κ β : Type} [DecidableEq κ] (k0 : κ) (v0 : β)
    (rest : List (κ × β)) (k : κ) :
    alistGet? ((k0, v0) :: rest) k = if k0 = k then some v0 else alistGet? rest k := by
  unfold alistGet?
  rw [List.find?_cons]
  by_cases h : k0 = k
  · simp [h]
  · simp [h]

theorem alistUpdate_cons {κ β : Type} [DecidableEq κ] (k0 : κ) (v0 : β)
    (rest : List (κ × β)) (k : κ) (f : β → β) :
    alistUpdate ((k0, v0) :: rest) k f =
      (if k0 = k then (k0, f v0) else (k0, v0)) :: alistUpdate rest k f := by
  by_cases h : k0 = k
  · simp [alistUpdate, h]
  · simp [alistUpdate, h]

theorem alistGet?_alistUpdate_self {κ β : Type} [DecidableEq κ]
    (l : List (κ × β)) (k : κ) (f : β → β) :
    alistGet? (alistUpdate l k f) k = (alistGet? l k).map f := by
  induction l with
  | nil => rfl
  | cons e rest ih =>
    obtain ⟨k0, v0⟩ := e
    rw [alistUpdate_cons]
    by_cases h : k0 = k
    · rw [if_pos h, alistGet?_cons, alistGet?_cons, if_pos h, if_pos h]
      rfl
    · rw [if_neg h, alistGet?_cons, alistGet?_cons, if_neg h, if_neg h]
      exact ih

theorem alistGet?_mapSet_self {κ β : Type} [DecidableEq κ]
    (l : List (κ × β)) (k : κ) (v : β)
    (h : (List.find? (fun e => e.1 = k) l).isSome = true) :
    alistGet? (l.map (fun e => if e.1 = k then (k, v) else e)) k = some v := by
  induction l with
  | nil => simp at h
  | cons e rest ih =>
    obtain ⟨k0, v0⟩ := e
    rw [List.map_cons]
    by_cases hk : k0 = k
    · rw [if_pos hk, alistGet?_cons, if_pos rfl]
    · rw [if_neg hk, alistGet?_cons, if_neg hk]
      apply ih
      rw [List.find?_cons] at h
      have hd : (decide (k0 = k)) = false := by simp [hk]
      rw [hd] at h
      exact h

theorem alistGet?_mapSet_ne {κ β : Type} [DecidableEq κ]
    (l : List (κ × β)) (k k' : κ) (v : β) (h : k' ≠ k) :
    alistGet? (l.map (fun e => if e.1 = k then (k, v) else e)) k' = alistGet? l k' := by
  induction l with
  | nil => rfl
  | cons e rest ih =>
    obtain ⟨k0, v0⟩ := e
    rw [List.map_cons]
    by_cases hk : k0 = k
    · rw [if_pos hk, alistGet?_cons, alistGet?_cons]
      rw [if_neg (fun hc : k = k' => h hc.symm),
        if_neg (fun hc : k0 = k' => h (hc.symm.trans hk))]
      exact ih
    · rw [if_neg hk, alistGet?_cons, alistGet?_cons]
      by_cases hk' : k0 = k'
      · rw [if_pos hk', if_pos hk']
      · rw [if_neg hk', if_neg hk']
        exact ih

theorem alistGet?_alistSet_self {κ β : Type} [DecidableEq κ]
    (l : List (κ × β)) (k : κ) (v : β) :
    alistGet? (alistSet l k v) k = some v := by
  unfold alistSet
  split_ifs with h
  · exact alistGet?_mapSet_self l k v h
  · rw [Option.not_isSome_iff_eq_none, List.find?_eq_none] at h
    induction l with
    | nil => simp [alistGet?_cons]
    | cons e rest ih =>
      obtain ⟨k0, v0⟩ := e
      have hk0 : ¬ k0 = k := by
        have := h (k0, v0) (List.mem_cons_self _ _)
        simpa using this
      rw [List.cons_append, alistGet?_cons, if_neg hk0]
      exact ih (fun e he => h e (List.mem_cons_of_mem _ he))

theorem alistGet?_alistSet_ne {κ β : Type} [DecidableEq κ]
    (l : List (κ × β)) (k k' : κ) (v : β) (h : k' ≠ k) :
    alistGet? (alistSet l k v) k' = alistGet? l k' := by
  unfold alistSet
  split_ifs with hs
  · exact alistGet?_mapSet_ne l k k' v h
  · induction l with
    | nil =>
      rw [List.nil_append, alistGet?_cons, if_neg (fun hc : k = k' => h hc.symm)]
    | cons e rest ih =>
      obtain ⟨k0, v0⟩ := e
      rw [List.cons_append, alistGet?_cons, alistGet?_cons]
      by_cases hk' : k0 = k'
      · rw [if_pos hk', if_pos hk']
      · rw [if_neg hk', if_neg hk']
        apply ih
        intro hsome
        apply hs
        rw [List.find?_cons]
        rcases hd : (decide (k0 = k)) with _ | _
        · exact hsome
        · rfl

theorem length_listModify {α : Type} (l : List α) (i : Nat) (f : α → α) :
    (listModify l i f).length = l.length := by
  cases h : l[i]? with
  | none => simp [listModify, List.get?_eq_getElem?, h]
  | some x => simp [listModify, List.get?_eq_getElem?, h]

theorem get?_listModify_self {α : Type} (l : List α) (i : Nat) (f : α → α) :
    (listModify l i f).get? i = (l.get? i).map f := by
  cases h : l[i]? with
  | none => simp [listModify, List.get?_eq_getElem?, h]
  | some x =>
    have hlt : i < l.length := (List.getElem?_eq_some_iff.mp h).1
    simp [listModify, List.get?_eq_getElem?, h, List.getElem?_set_self hlt]

theorem get?_listModify_ne {α : Type} (l : List α) (i j : Nat) (f : α → α)
    (h : i ≠ j) :
    (listModify l i f).get? j = l.get? j := by
  cases hg : l[i]? with
  | none => simp [listModify, List.get?_eq_getElem?, hg]
  | some x => simp [listModify, List.get?_eq_getElem?, hg, List.getElem?_set_ne h]

theorem getD_listModify_ne {α : Type} [Inhabited α] (l : List α) (i j : Nat)
    (f : α → α) (h : i ≠ j) :
    (listModify l i f).getD j default = l.getD j default := by
  rw [List.getD_eq_getElem?_getD, List.getD_eq_getElem?_getD,
    ← List.get?_eq_getElem?, ← List.get?_eq_getElem?, get?_listModify_ne l i j f h]

/-! ## `SpanBucket.UpdateEnd` as a running maximum -/

theorem foldl_max_le_init (ends : Nat → Time) :
    ∀ (is : List Nat) (a : Time),
      a ≤ is.foldl (fun latest i => if latest < ends i then ends i else latest) a
  | [], a => le_refl a
  | i :: is, a => by
    dsimp only [List.foldl]
    split_ifs with h
    · exact le_trans (le_of_lt h) (foldl_max_le_init ends is _)
    · exact foldl_max_le_init ends is a
  termination_by is => is.length

theorem foldl_max_mem_le (ends : Nat → Time) :
    ∀ (is : List Nat) (a : Time) (j : Nat), j ∈ is →
      ends j ≤ is.foldl (fun latest i => if latest < ends i then ends i else latest) a
  | [], a, j, hj => absurd hj (List.not_mem_nil j)
  | i :: is, a, j, hj => by
    dsimp only [List.foldl]
    rcases List.mem_cons.mp hj with rfl | hj2
    · split_ifs with h
      · exact foldl_max_le_init ends is _
      · exact le_trans (le_of_not_lt h) (foldl_max_le_init ends is a)
    · split_ifs with h <;> exact foldl_max_mem_le ends is _ j hj2

theorem foldl_max_cases (ends : Nat → Time) :
    ∀ (is : List Nat) (a : Time),
      is.foldl (fun latest i => if latest < ends i then ends i else latest) a = a ∨
      ∃ j ∈ is, is.foldl (fun latest i => if latest < ends i then ends i else latest) a = ends j
  | [], a => Or.inl rfl
  | i :: is, a => by
    dsimp only [List.foldl]
    split_ifs with h
    · rcases foldl_max_cases ends is (ends i) with he | ⟨j, hj, he⟩
      · exact Or.inr ⟨i, List.mem_cons_self _ _, he⟩
      · exact Or.inr ⟨j, List.mem_cons_of_mem _ hj, he⟩
    · rcases foldl_max_cases ends is a with he | ⟨j, hj, he⟩
      · exact Or.inl he
      · exact Or.inr ⟨j, List.mem_cons_of_mem _ hj, he⟩

/-- `UpdateEnd` computes the maximum member-span end, floored at the zero
`Time` it starts from. -/
theorem UpdateEnd_spec (heap : List Span) (bucket : SpanBucket) :
    (∀ j ∈ bucket.spans,
      (heap.getD j default).«end» ≤ (bucket.UpdateEnd heap).«end») ∧
    (0 : Time) ≤ (bucket.UpdateEnd heap).«end» ∧
    ((bucket.UpdateEnd heap).«end» = (0 : Time) ∨
      ∃ j ∈ bucket.spans,
        (bucket.UpdateEnd heap).«end» = (heap.getD j default).«end») := by
  refine ⟨?_, ?_, ?_⟩
  · intro j hj
    exact foldl_max_mem_le (fun i => (heap.getD i default).«end»)
      bucket.spans 0 j hj
  · exact foldl_max_le_init (fun i => (heap.getD i default).«end»)
      bucket.spans 0
  · exact foldl_max_cases (fun i => (heap.getD i default).«end»)
      bucket.spans 0

/-! ## C3: which span `Stop` actually stops -/

theorem findStopSpan_found (heap : List Span) (now : ℚ) (id pos : Int)
    (bs1 bs2 : List (ℚ × SpanBucket)) (k : ℚ) (b : SpanBucket)
    (is1 is2 : List Nat) (i : Nat)
    (hprev : ∀ kb ∈ bs1, kb.2.«end» < (now : Time) ∨ ∀ j ∈ kb.2.spans,
      ¬((heap.getD j default).id = id ∧ (heap.getD j default).pos = pos ∧
        (now : Time) < (heap.getD j default).«end»))
    (hend : ¬ b.«end» < (now : Time))
    (hspans : b.spans = is1 ++ i :: is2)
    (hskip : ∀ j ∈ is1,
      ¬((heap.getD j default).id = id ∧ (heap.getD j default).pos = pos ∧
        (now : Time) < (heap.getD j default).«end»))
    (hmatch : (heap.getD i default).id = id ∧ (heap.getD i default).pos = pos ∧
      (now : Time) < (heap.getD i default).«end») :
    findStopSpan heap now id pos (bs1 ++ (k, b) :: bs2) = some (k, i) := by
  induction bs1 with
  | nil =>
    rw [List.nil_append]
    unfold findStopSpan
    rw [if_neg hend]
    have hfind : b.spans.find? (fun j =>
        (heap.getD j default).id = id ∧ (heap.getD j default).pos = pos ∧
        (now : Time) < (heap.getD j default).«end») = some i := by
      rw [hspans]
      apply find?_first
      · intro y hy
        simpa using hskip y hy
      · simpa using hmatch
    rw [hfind]
  | cons kb rest ih =>
    obtain ⟨k0, b0⟩ := kb
    rw [List.cons_append]
    unfold findStopSpan
    have htail := ih (fun kb hkb => hprev kb (List.mem_cons_of_mem _ hkb))
    rcases hprev (k0, b0) (List.mem_cons_self _ _) with hpast | hnone
    · rw [if_pos hpast]
      exact htail
    · split_ifs with h0
      · exact htail
      · have hfind : b0.spans.find? (fun j =>
            (heap.getD j default).id = id ∧ (heap.getD j default).pos = pos ∧
            (now : Time) < (heap.getD j default).«end») = none := by
          rw [List.find?_eq_none]
          intro j hj
          simpa using hnone j hj
        rw [hfind]
        exact htail

/-- C3 counterexample: with two open spans matching `(0,0)` in the same
bucket — span 0 starting at `0.1`, span 1 (the most recent) starting at
`0.2` — `Stop(0,0)` at `now = 0.5` terminates span 0, the earliest
appended, and leaves the most recent matching span untouched. -/
theorem stop_most_recent_cex :
    ((stopDemoTrail.Stop (1/2) 0 0).spanHeap.getD 1 default).«end» ≠
      ((1/2 : ℚ) : Time) ∧
    ((stopDemoTrail.Stop (1/2) 0 0).spanHeap.getD 0 default).«end» =
      ((1/2 : ℚ) : Time) := by
  have hfind : findStopSpan stopDemoTrail.spanHeap (1/2) 0 0 stopDemoTrail.buckets =
      some (0, 0) := by
    norm_num [stopDemoTrail, findStopSpan, List.find?_cons, WithTop.coe_lt_coe]
  unfold Trail.Stop
  rw [hfind]
  norm_num [stopDemoTrail, listModify, Trail.redrawBucket, WithTop.coe_eq_coe]

theorem alistGet?_first {κ β : Type} [DecidableEq κ] :
    ∀ (bs1 : List (κ × β)) (k : κ) (v : β) (bs2 : List (κ × β)),
      (∀ kb ∈ bs1, kb.1 ≠ k) → alistGet? (bs1 ++ (k, v) :: bs2) k = some v
  | [], k, v, bs2, _ => by
    rw [List.nil_append, alistGet?_cons, if_pos rfl]
  | (k0, v0) :: rest, k, v, bs2, h => by
    rw [List.cons_append, alistGet?_cons,
      if_neg (h (k0, v0) (List.mem_cons_self _ _))]
    exact alistGet?_first rest k v bs2 (fun kb hkb => h kb (List.mem_cons_of_mem _ hkb))

/-- C3 (amended): `Stop(id, pos)` walks the buckets in iteration order,
skips those whose end bound is before `now`, and terminates the *first*
matching open span in the first eligible bucket holding one (within a
bucket, the earliest-appended match — not the most recent).  Doing so it
rewrites exactly that span's end to `now`, marks the bucket containing
`now` (not necessarily the span's bucket) stale, and re-derives the
affected bucket's end bound as the maximum end over its spans, floored at
the zero time. -/
theorem stop_first_match_spec (trail : Trail) (now : ℚ) (id pos : Int)
    (bs1 bs2 : List (ℚ × SpanBucket)) (k : ℚ) (b : SpanBucket)
    (is1 is2 : List Nat) (i : Nat)
    (hbuckets : trail.buckets = bs1 ++ (k, b) :: bs2)
    (hprev : ∀ kb ∈ bs1, kb.2.«end» < (now : Time) ∨ ∀ j ∈ kb.2.spans,
      ¬((trail.spanHeap.getD j default).id = id ∧
        (trail.spanHeap.getD j default).pos = pos ∧
        (now : Time) < (trail.spanHeap.getD j default).«end»))
    (hend : ¬ b.«end» < (now : Time))
    (hspans : b.spans = is1 ++ i :: is2)
    (hskip : ∀ j ∈ is1,
      ¬((trail.spanHeap.getD j default).id = id ∧
        (trail.spanHeap.getD j default).pos = pos ∧
        (now : Time) < (trail.spanHeap.getD j default).«end»))
    (hmatch : (trail.spanHeap.getD i default).id = id ∧
      (trail.spanHeap.getD i default).pos = pos ∧
      (now : Time) < (trail.spanHeap.getD i default).«end»)
    (hk1 : ∀ kb ∈ bs1, kb.1 ≠ k) :
    (trail.Stop now id pos).spanHeap.get? i =
      (trail.spanHeap.get? i).map (fun s => { s with «end» := (now : Time) }) ∧
    (∀ j, j ≠ i → (trail.Stop now id pos).spanHeap.get? j = trail.spanHeap.get? j) ∧
    (trail.Stop now id pos).readyAt (truncateQ now trail.bucketSize) = false ∧
    alistGet? (trail.Stop now id pos).buckets k =
      some (b.UpdateEnd (trail.Stop now id pos).spanHeap) ∧
    (∀ j ∈ b.spans,
      ((trail.Stop now id pos).spanHeap.getD j default).«end» ≤
        (b.UpdateEnd (trail.Stop now id pos).spanHeap).«end») ∧
    ((b.UpdateEnd (trail.Stop now id pos).spanHeap).«end» = (0 : Time) ∨
      ∃ j ∈ b.spans,
        (b.UpdateEnd (trail.Stop now id pos).spanHeap).«end» =
          ((trail.Stop now id pos).spanHeap.getD j default).«end») ∧
    (trail.Stop now id pos).activeSpans = trail.activeSpans := by
  have hfind : findStopSpan trail.spanHeap now id pos trail.buckets = some (k, i) := by
    rw [hbuckets]
    exact findStopSpan_found trail.spanHeap now id pos bs1 bs2 k b is1 is2 i
      hprev hend hspans hskip hmatch
  have hstop : trail.Stop now id pos =
      { trail with
          spanHeap := listModify trail.spanHeap i
            (fun s => { s with «end» := (now : Time) }),
          cachedReady := alistSet trail.cachedReady (truncateQ now trail.bucketSize) false,
          buckets := alistUpdate trail.buckets k
            (fun bk => bk.UpdateEnd (listModify trail.spanHeap i
              (fun s => { s with «end» := (now : Time) }))) } := by
    unfold Trail.Stop
    rw [hfind]
    rfl
  have hgetb : alistGet? trail.buckets k = some b := by
    rw [hbuckets]
    exact alistGet?_first bs1 k b bs2 hk1
  rw [hstop]
  refine ⟨?_, ?_, ?_, ?_, ?_, ?_, rfl⟩
  · exact get?_listModify_self trail.spanHeap i _
  · intro j hj
    exact get?_listModify_ne trail.spanHeap i j _ (fun hij => hj hij.symm)
  · show ((alistGet? (alistSet trail.cachedReady _ false) _).getD false) = false
    rw [alistGet?_alistSet_self]
    rfl
  · show alistGet? (alistUpdate trail.buckets k _) k = _
    rw [alistGet?_alistUpdate_self, hgetb]
    rfl
  · intro j hj
    exact (UpdateEnd_spec _ b).1 j hj
  · exact (UpdateEnd_spec _ b).2.2

/-- Witness for `stop_first_match_spec` on `stopDemoTrail`. -/
theorem stop_first_match_spec_witness :
    (stopDemoTrail.Stop (1/2) 0 0).spanHeap.get? 0 =
      (stopDemoTrail.spanHeap.get? 0).map
        (fun s => { s with «end» := ((1/2 : ℚ) : Time) }) :=
  (stop_first_match_spec stopDemoTrail (1/2) 0 0 [] []
    0 ⟨0, ((3/2 : ℚ) : Time), [0, 1]⟩ [] [1] 0
    (by norm_num [stopDemoTrail])
    (by intro kb hkb; simp at hkb)
    (by norm_num [WithTop.coe_lt_coe])
    (by norm_num)
    (by intro j hj; simp at hj)
    (by norm_num [stopDemoTrail, WithTop.coe_lt_coe])
    (by intro kb hkb; simp at hkb)).1

/-! ## C4: cache invalidation on lane-extent change -/

/-- C4 counterexample: inserting at `pos = 1`, outside the extent `[0,0]`
of `resetDemoTrail`, discards its cached artifact (handle `7`) to deferred
disposal and *empties* the reuse pool — it does not return the artifact to
the pool. -/
theorem span_full_invalidation_cex :
    resetDemoTrail.cached = [(0, 7)] ∧
    (resetDemoTrail.Span (1/2) 0 1 ((1 : ℚ) : Duration)).unused = [] ∧
    ¬ 7 ∈ (resetDemoTrail.Span (1/2) 0 1 ((1 : ℚ) : Duration)).unused := by
  have hu : (resetDemoTrail.Span (1/2) 0 1 ((1 : ℚ) : Duration)).unused = [] := by
    norm_num [Trail.Span, Trail.spanExtent, Trail.resetAll, Trail.redrawAll,
      Trail.redrawBucket, resetDemoTrail, alistGet?, alistSet, alistUpdate,
      truncateQ, ratTrunc, List.find?_cons,
      ← WithTop.coe_one, ← WithTop.coe_add, WithTop.coe_lt_coe]
  refine ⟨rfl, hu, ?_⟩
  rw [hu]
  simp

theorem spanExtent_inside (trail : Trail) (pos : Int) (hb : ¬ trail.buckets = [])
    (h1 : ¬ pos < trail.minPos) (h2 : ¬ trail.maxPos < pos) :
    trail.spanExtent pos = trail := by
  unfold Trail.spanExtent
  rw [if_neg hb, if_neg h1, if_neg h2]

theorem spanExtent_outside (trail : Trail) (pos : Int)
    (hmm : trail.minPos ≤ trail.maxPos)
    (h : pos < trail.minPos ∨ trail.maxPos < pos ∨ trail.buckets = []) :
    (trail.spanExtent pos).cached = [] ∧
    (trail.spanExtent pos).grid = none ∧
    (trail.spanExtent pos).unused = [] ∧
    (trail.spanExtent pos).gridReady = false ∧
    (trail.spanExtent pos).cachedReady = [] ∧
    (trail.spanExtent pos).minPos ≤ pos ∧ pos ≤ (trail.spanExtent pos).maxPos := by
  unfold Trail.spanExtent
  by_cases hb : trail.buckets = []
  · rw [if_pos hb]
    refine ⟨rfl, rfl, rfl, rfl, rfl, le_refl pos, le_refl pos⟩
  · rw [if_neg hb]
    rcases h with h1 | h2 | h3
    · rw [if_pos h1]
      exact ⟨rfl, rfl, rfl, rfl, rfl, le_refl pos,
        le_trans (le_of_lt h1) hmm⟩
    · rw [if_neg (not_lt.mpr (le_trans hmm (le_of_lt h2))), if_pos h2]
      exact ⟨rfl, rfl, rfl, rfl, rfl, le_trans hmm (le_of_lt h2), le_refl pos⟩
    · exact absurd h3 hb

theorem Span_cacheFields (trail : Trail) (now : ℚ) (id pos : Int) (d : Duration) :
    (trail.Span now id pos d).cached = (trail.spanExtent pos).cached ∧
    (trail.Span now id pos d).grid = (trail.spanExtent pos).grid ∧
    (trail.Span now id pos d).gridReady = (trail.spanExtent pos).gridReady ∧
    (trail.Span now id pos d).unused = (trail.spanExtent pos).unused ∧
    (trail.Span now id pos d).minPos = (trail.spanExtent pos).minPos ∧
    (trail.Span now id pos d).maxPos = (trail.spanExtent pos).maxPos ∧
    (trail.Span now id pos d).cachedReady =
      alistSet (trail.spanExtent pos).cachedReady (truncateQ now trail.bucketSize) false := by
  unfold Trail.Span
  dsimp only
  split
  · simp [Trail.redrawBucket]
  · split_ifs <;> simp [Trail.redrawBucket]

/-- C4 (amended): inserting a span with `pos` inside the current extent
(and at least one bucket present) performs no full invalidation — the
extent, cached-artifact map, grid and reuse pool are untouched and only
the staleness flag of the bucket containing `now` is set stale.  If `pos`
falls outside the extent, or the bucket map is empty, the extent moves to
include `pos` and a full invalidation occurs: the cached artifacts and the
grid are handed to deferred disposal and dropped, the reuse pool is
*emptied* (artifacts are not returned to it), and all staleness flags
reset with only the bucket containing `now` tracked (as stale). -/
theorem span_cache_invalidation_spec (trail : Trail) (now : ℚ) (id pos : Int)
    (d : Duration) :
    (¬ trail.buckets = [] → trail.minPos ≤ pos → pos ≤ trail.maxPos →
      (trail.Span now id pos d).minPos = trail.minPos ∧
      (trail.Span now id pos d).maxPos = trail.maxPos ∧
      (trail.Span now id pos d).cached = trail.cached ∧
      (trail.Span now id pos d).grid = trail.grid ∧
      (trail.Span now id pos d).gridReady = trail.gridReady ∧
      (trail.Span now id pos d).unused = trail.unused ∧
      (trail.Span now id pos d).readyAt (truncateQ now trail.bucketSize) = false ∧
      (∀ kq, kq ≠ truncateQ now trail.bucketSize →
        (trail.Span now id pos d).readyAt kq = trail.readyAt kq)) ∧
    (trail.minPos ≤ trail.maxPos →
      (pos < trail.minPos ∨ trail.maxPos < pos ∨ trail.buckets = []) →
      (trail.Span now id pos d).minPos ≤ pos ∧
      pos ≤ (trail.Span now id pos d).maxPos ∧
      (trail.Span now id pos d).cached = [] ∧
      (trail.Span now id pos d).grid = none ∧
      (trail.Span now id pos d).unused = [] ∧
      (trail.Span now id pos d).gridReady = false ∧
      (trail.Span now id pos d).cachedReady =
        [(truncateQ now trail.bucketSize, false)]) := by
  obtain ⟨hc, hg, hgr, hu, hmin, hmax, hcr⟩ := Span_cacheFields trail now id pos d
  constructor
  · intro hb h1 h2
    have hext : trail.spanExtent pos = trail :=
      spanExtent_inside trail pos hb (not_lt.mpr h1) (not_lt.mpr h2)
    rw [hext] at hc hg hgr hu hmin hmax hcr
    refine ⟨hmin, hmax, hc, hg, hgr, hu, ?_, ?_⟩
    · show ((alistGet? (trail.Span now id pos d).cachedReady _).getD false) = false
      rw [hcr, alistGet?_alistSet_self]
      rfl
    · intro kq hkq
      show ((alistGet? (trail.Span now id pos d).cachedReady kq).getD false) =
        ((alistGet? trail.cachedReady kq).getD false)
      rw [hcr, alistGet?_alistSet_ne _ _ _ _ hkq]
  · intro hmm h
    obtain ⟨ec, eg, eu, egr, ecr, e1, e2⟩ := spanExtent_outside trail pos hmm h
    rw [ec] at hc
    rw [eg] at hg
    rw [egr] at hgr
    rw [eu] at hu
    rw [ecr] at hcr
    refine ⟨?_, ?_, hc, hg, hu, hgr, ?_⟩
    · rw [hmin]; exact e1
    · rw [hmax]; exact e2
    · rw [hcr]
      rfl

/-- Witness for `span_cache_invalidation_spec`: an in-extent insert on
`resetDemoTrail` leaves the cached-artifact map unchanged. -/
theorem span_cache_invalidation_spec_witness :
    (resetDemoTrail.Span (1/2) 0 0 ((1 : ℚ) : Duration)).cached =
      resetDemoTrail.cached :=
  ((span_cache_invalidation_spec resetDemoTrail (1/2) 0 0 ((1 : ℚ) : Duration)).1
    (by norm_num [resetDemoTrail]) (by norm_num [resetDemoTrail])
    (by norm_num [resetDemoTrail])).2.2.1

/-! ## C5: ActivePos round trip, sortedness, lazy pruning -/

theorem mem_dedupFirstAux (l : List Int) :
    ∀ (seen : List Int) (x : Int),
      x ∈ dedupFirstAux seen l ↔ x ∈ l ∧ ¬ x ∈ seen := by
  induction l with
  | nil => intro seen x; simp [dedupFirstAux]
  | cons y ys ih =>
    intro seen x
    unfold dedupFirstAux
    split_ifs with hy
    · rw [ih seen x]
      constructor
      · rintro ⟨hx, hs⟩
        exact ⟨List.mem_cons_of_mem _ hx, hs⟩
      · rintro ⟨hx, hs⟩
        rcases List.mem_cons.mp hx with rfl | hx2
        · exact absurd hy hs
        · exact ⟨hx2, hs⟩
    · constructor
      · intro hx
        rcases List.mem_cons.mp hx with rfl | hx2
        · exact ⟨List.mem_cons_self _ _, hy⟩
        · obtain ⟨ha, hb⟩ := (ih (y :: seen) x).mp hx2
          exact ⟨List.mem_cons_of_mem _ ha,
            fun hc => hb (List.mem_cons_of_mem _ hc)⟩
      · rintro ⟨hx, hs⟩
        rcases List.mem_cons.mp hx with rfl | hx2
        · exact List.mem_cons_self _ _
        · by_cases hxy : x = y
          · subst hxy
            exact List.mem_cons_self _ _
          · refine List.mem_cons_of_mem _ ((ih (y :: seen) x).mpr ⟨hx2, ?_⟩)
            intro hc
            rcases List.mem_cons.mp hc with h1 | h2
            · exact hxy h1
            · exact hs h2

theorem mem_dedupFirst (l : List Int) (x : Int) : x ∈ dedupFirst l ↔ x ∈ l := by
  unfold dedupFirst
  rw [mem_dedupFirstAux]
  simp

theorem nodup_dedupFirstAux (l : List Int) :
    ∀ seen : List Int, (dedupFirstAux seen l).Nodup := by
  induction l with
  | nil => intro seen; exact List.nodup_nil
  | cons y ys ih =>
    intro seen
    unfold dedupFirstAux
    split_ifs with hy
    · exact ih seen
    · refine List.Nodup.cons ?_ (ih (y :: seen))
      intro hc
      exact ((mem_dedupFirstAux ys (y :: seen) y).mp hc).2 (List.mem_cons_self _ _)

/-- C5: `ActivePos` returns a sorted, duplicate-free lane list; a span
inserted with positive duration at `now` puts its lane into the result of
an immediate query; and any active-list entry whose span end has passed
the query instant is pruned from the active list by the query, its lane
absent from the result whenever no other span is active in that lane. -/
theorem activePos_spec (trail : Trail) (now : ℚ) :
    List.Sorted (· ≤ ·) (trail.ActivePos now).1 ∧
    (trail.ActivePos now).1.Nodup ∧
    (∀ (id pos : Int) (d : Duration), (0 : Duration) < d →
      pos ∈ ((trail.Span now id pos d).ActivePos now).1) ∧
    (∀ i, i ∈ trail.activeSpans →
      (trail.spanHeap.getD i default).«end» < (now : Time) →
      ¬ i ∈ ((trail.ActivePos now).2).activeSpans) ∧
    (∀ P : Int, (∀ j ∈ trail.activeSpans,
        (trail.spanHeap.getD j default).pos = P →
        (trail.spanHeap.getD j default).InRange (now : Time) (now : Time) = false) →
      ¬ P ∈ (trail.ActivePos now).1) := by
  refine ⟨?_, ?_, ?_, ?_, ?_⟩
  · exact List.sorted_insertionSort (· ≤ ·) _
  · exact (List.perm_insertionSort (· ≤ ·) _).nodup_iff.mpr
      (nodup_dedupFirstAux _ [])
  · intro id pos d hd
    have hheap := Span_spanHeap trail now id pos d
    have hact := Span_activeSpans trail now id pos d
    set tr := trail.Span now id pos d with htr
    have hN : tr.spanHeap.getD trail.spanHeap.length default =
        Span.mk id pos (now : Time) ((now : Time) + d) := by
      rw [List.getD_eq_getElem?_getD, hheap, List.getElem?_append_right (le_refl _)]
      simp
    have hmem : trail.spanHeap.length ∈ tr.activeSpans := by
      rw [hact]
      exact List.mem_append_right _ (List.mem_cons_self _ _)
    have hin : (tr.spanHeap.getD trail.spanHeap.length default).InRange
        (now : Time) (now : Time) = true := by
      rw [hN]
      unfold Span.InRange
      have hle : (now : Time) ≤ (now : Time) + d :=
        le_add_of_nonneg_right (le_of_lt hd)
      rw [if_neg (not_lt.mpr hle), if_neg (lt_irrefl _)]
    show pos ∈ List.insertionSort (· ≤ ·) _
    rw [List.mem_insertionSort, mem_dedupFirst]
    refine List.mem_map.mpr ⟨trail.spanHeap.length, ?_, ?_⟩
    · exact List.mem_filter.mpr ⟨hmem, hin⟩
    · rw [hN]
  · intro i hi hend
    unfold Trail.ActivePos
    intro hc
    have := (List.mem_filter.mp hc).2
    unfold Span.InRange at this
    rw [if_pos hend] at this
    exact Bool.false_ne_true this
  · intro P hP
    unfold Trail.ActivePos
    dsimp only
    rw [List.mem_insertionSort, mem_dedupFirst]
    intro hmem
    obtain ⟨j, hj, hpj⟩ := List.mem_map.mp hmem
    have hjin := List.mem_filter.mp hj
    have := hP j hjin.1 hpj
    rw [this] at hjin
    exact Bool.false_ne_true hjin.2

/-- Witness for `activePos_spec`: inserting lane 5 with duration 1 beat
makes lane 5 active immediately. -/
theorem activePos_spec_witness :
    (5 : Int) ∈ (((NewTrail 1 4 pulseDemo).Span (1/2) 0 5
      ((1 : ℚ) : Duration)).ActivePos (1/2)).1 :=
  (activePos_spec (NewTrail 1 4 pulseDemo) (1/2)).2.2.1 0 5 ((1 : ℚ) : Duration)
    (by rw [← WithTop.coe_zero, WithTop.coe_lt_coe]; norm_num)

/-! ## C9: the start ≤ end invariant -/

/-- C9 counterexample: `Span` applies no sign check to the duration, so a
call with duration `-1` constructs a span with `end < start`. -/
theorem span_negative_duration_cex :
    (((NewTrail 1 4 pulseDemo).Span 0 0 0 ((-1 : ℚ) : Duration)).spanHeap.getD 0
        default).«end» <
      (((NewTrail 1 4 pulseDemo).Span 0 0 0 ((-1 : ℚ) : Duration)).spanHeap.getD 0
        default).start := by
  rw [Span_spanHeap]
  simp only [NewTrail, List.nil_append, List.getD_cons_zero]
  rw [← WithTop.coe_add, WithTop.coe_lt_coe]
  norm_num

theorem findStopSpan_matches (heap : List Span) (now : ℚ) (id pos : Int) :
    ∀ (bs : List (ℚ × SpanBucket)) (k : ℚ) (i : Nat),
      findStopSpan heap now id pos bs = some (k, i) →
      (heap.getD i default).id = id ∧ (heap.getD i default).pos = pos ∧
        (now : Time) < (heap.getD i default).«end»
  | [], k, i, h => by simp [findStopSpan] at h
  | (k0, b0) :: rest, k, i, h => by
    unfold findStopSpan at h
    split_ifs at h with hend
    · exact findStopSpan_matches heap now id pos rest k i h
    · revert h
      cases hf : b0.spans.find? (fun j =>
          (heap.getD j default).id = id ∧ (heap.getD j default).pos = pos ∧
          (now : Time) < (heap.getD j default).«end») with
      | none => exact fun h => findStopSpan_matches heap now id pos rest k i h
      | some j =>
        intro h
        have hj := List.find?_some hf
        simp only [Option.some.injEq, Prod.mk.injEq] at h
        obtain ⟨-, rfl⟩ := h
        simpa using hj

/-- C9 (amended): `Span(id, pos, d)` appends exactly the span
`{start = now, end = now + d}`; when `0 ≤ d` this satisfies
`start ≤ end` and preserves the invariant for every stored span.  `Stop`
changes at most one span — a matching one that was strictly open at `now`
— by rewriting its end to `now`, and preserves `start ≤ end` for every
span provided no stored span starts after `now` (the clock read is not
earlier than any recorded start). -/
theorem span_stop_order_invariant (trail : Trail) (now : ℚ) (id pos : Int) :
    (∀ d : Duration,
      (trail.Span now id pos d).spanHeap =
        trail.spanHeap ++ [Span.mk id pos (now : Time) ((now : Time) + d)] ∧
      ((0 : Duration) ≤ d → (now : Time) ≤ (now : Time) + d) ∧
      ((0 : Duration) ≤ d → (∀ s ∈ trail.spanHeap, s.start ≤ s.«end») →
        ∀ s ∈ (trail.Span now id pos d).spanHeap, s.start ≤ s.«end»)) ∧
    (∀ i, ¬ (trail.Stop now id pos).spanHeap.get? i = trail.spanHeap.get? i →
      ∃ s, trail.spanHeap.get? i = some s ∧ (now : Time) < s.«end» ∧
        s.id = id ∧ s.pos = pos ∧
        (trail.Stop now id pos).spanHeap.get? i =
          some { s with «end» := (now : Time) }) ∧
    ((∀ s ∈ trail.spanHeap, s.start ≤ s.«end») →
      (∀ s ∈ trail.spanHeap, s.start ≤ (now : Time)) →
      ∀ s ∈ (trail.Stop now id pos).spanHeap, s.start ≤ s.«end») := by
  refine ⟨?_, ?_, ?_⟩
  · intro d
    refine ⟨Span_spanHeap trail now id pos d, ?_, ?_⟩
    · intro hd
      exact le_add_of_nonneg_right hd
    · intro hd hinv s hs
      rw [Span_spanHeap] at hs
      rcases List.mem_append.mp hs with h1 | h2
      · exact hinv s h1
      · rw [List.mem_singleton] at h2
        subst h2
        exact le_add_of_nonneg_right hd
  · intro i hne
    cases hfind : findStopSpan trail.spanHeap now id pos trail.buckets with
    | none =>
      exfalso
      apply hne
      unfold Trail.Stop
      rw [hfind]
    | some ki =>
      obtain ⟨k, j⟩ := ki
      have hstopheap : (trail.Stop now id pos).spanHeap =
          listModify trail.spanHeap j (fun s => { s with «end» := (now : Time) }) := by
        unfold Trail.Stop
        rw [hfind]
        rfl
      by_cases hij : j = i
      · subst hij
        cases hg : trail.spanHeap.get? j with
        | none =>
          exfalso
          apply hne
          rw [hstopheap, get?_listModify_self, hg]
          rfl
        | some s =>
          have hmatch := findStopSpan_matches trail.spanHeap now id pos
            trail.buckets k j hfind
          have hsd : trail.spanHeap.getD j default = s := by
            rw [List.getD_eq_getElem?_getD, ← List.get?_eq_getElem?, hg]
            rfl
          rw [hsd] at hmatch
          refine ⟨s, rfl, hmatch.2.2, hmatch.1, hmatch.2.1, ?_⟩
          rw [hstopheap, get?_listModify_self, hg]
          rfl
      · exfalso
        apply hne
        rw [hstopheap, get?_listModify_ne _ _ _ _ hij]
  · intro hinv hmono s hs
    cases hfind : findStopSpan trail.spanHeap now id pos trail.buckets with
    | none =>
      have : trail.Stop now id pos = trail := by
        unfold Trail.Stop
        rw [hfind]
      rw [this] at hs
      exact hinv s hs
    | some ki =>
      obtain ⟨k, j⟩ := ki
      have hstopheap : (trail.Stop now id pos).spanHeap =
          listModify trail.spanHeap j (fun s => { s with «end» := (now : Time) }) := by
        unfold Trail.Stop
        rw [hfind]
        rfl
      rw [hstopheap] at hs
      obtain ⟨n, hn⟩ := List.mem_iff_get?.mp hs
      by_cases hjn : j = n
      · subst hjn
        rw [get?_listModify_self] at hn
        cases hg : trail.spanHeap.get? j with
        | none => rw [hg] at hn; exact absurd hn (by simp)
        | some s0 =>
          rw [hg] at hn
          have hmem : s0 ∈ trail.spanHeap := List.get?_mem hg
          have : s = { s0 with «end» := (now : Time) } := by
            simpa using hn.symm
          subst this
          exact hmono s0 hmem
      · rw [get?_listModify_ne _ _ _ _ hjn] at hn
        exact hinv s (List.get?_mem hn)

/-- Witness for `span_stop_order_invariant`: a 1-beat span keeps
`start ≤ end`. -/
theorem span_stop_order_invariant_witness :
    ((1/2 : ℚ) : Time) ≤ ((1/2 : ℚ) : Time) + ((1 : ℚ) : Duration) :=
  (((span_stop_order_invariant (NewTrail 1 4 pulseDemo) (1/2) 0 5).1
    ((1 : ℚ) : Duration)).2.1)
    (by rw [← WithTop.coe_zero, WithTop.coe_le_coe]; norm_num)

/-! ## C10: Forever spans -/

/-- C10: a span inserted with `Forever` gets `end = +∞` (`⊤`); an
active-list entry whose end is `⊤` survives every `ActivePos` query made
at or after its start, and its lane is always reported; and `cleanup`
never removes a bucket containing such a span, because the bucket's end
bound — at least the span's infinite end — is never before the retention
cutoff. -/
theorem forever_span_retention :
    (∀ (trail : Trail) (now : ℚ) (id pos : Int),
      (trail.Span now id pos Forever).spanHeap =
        trail.spanHeap ++ [Span.mk id pos (now : Time) ⊤]) ∧
    (∀ (trail : Trail) (t : ℚ) (i : Nat),
      i ∈ trail.activeSpans →
      (trail.spanHeap.getD i default).«end» = ⊤ →
      (trail.spanHeap.getD i default).start ≤ (t : Time) →
      i ∈ ((trail.ActivePos t).2).activeSpans ∧
      (trail.spanHeap.getD i default).pos ∈ (trail.ActivePos t).1) ∧
    (∀ (trail : Trail) (h : ℚ) (k : ℚ) (b : SpanBucket) (i : Nat),
      (k, b) ∈ trail.buckets →
      i ∈ b.spans →
      (trail.spanHeap.getD i default).«end» = ⊤ →
      (trail.spanHeap.getD i default).«end» ≤ b.«end» →
      (k, b) ∈ (trail.cleanup h).buckets) := by
  refine ⟨?_, ?_, ?_⟩
  · intro trail now id pos
    rw [Span_spanHeap]
    simp [Forever, WithTop.add_top]
  · intro trail t i hi hend hstart
    have hin : (trail.spanHeap.getD i default).InRange (t : Time) (t : Time) = true := by
      unfold Span.InRange
      rw [hend]
      rw [if_neg not_top_lt, if_neg (not_lt.mpr hstart)]
    constructor
    · exact List.mem_filter.mpr ⟨hi, hin⟩
    · show _ ∈ List.insertionSort (· ≤ ·) _
      rw [List.mem_insertionSort, mem_dedupFirst]
      exact List.mem_map.mpr ⟨i, List.mem_filter.mpr ⟨hi, hin⟩, rfl⟩
  · intro trail h k b i hkb hib hend hle
    have htop : b.«end» = ⊤ := top_le_iff.mp (hend ▸ hle)
    show (k, b) ∈ List.filter _ trail.buckets
    refine List.mem_filter.mpr ⟨hkb, ?_⟩
    simp only [htop, decide_eq_true_eq]
    exact not_top_lt

/-- Witness for `forever_span_retention`: the `Forever` span of
`foreverDemoTrail` keeps lane 5 active even when queried at beat 100. -/
theorem forever_span_retention_witness :
    (0 : Nat) ∈ ((foreverDemoTrail.ActivePos 100).2).activeSpans :=
  ((forever_span_retention.2.1 foreverDemoTrail 100 0
    (by rw [foreverDemoTrail, Span_activeSpans]; simp [NewTrail])
    (by rw [foreverDemoTrail, Span_spanHeap]; simp [NewTrail, Forever])
    (by
      rw [foreverDemoTrail, Span_spanHeap]
      simp only [NewTrail, List.nil_append, List.getD_cons_zero]
      rw [WithTop.coe_le_coe]
      norm_num))).1

/-! ## C2: the Subindex sweep always produces valid SubSpans.
Supporting association-list and indexing lemmas. -/

theorem alistGet?_mem {κ β : Type} [DecidableEq κ] {l : List (κ × β)} {k : κ} {v : β}
    (h : alistGet? l k = some v) : (k, v) ∈ l := by
  unfold alistGet? at h
  cases hf : l.find? (fun e => e.1 = k) with
  | none => rw [hf] at h; exact absurd h (by simp)
  | some e =>
    rw [hf] at h
    have hm := List.mem_of_find?_eq_some hf
    have hp := List.find?_some hf
    simp only [decide_eq_true_eq] at hp
    have hv : e.2 = v := by simpa using h
    rw [← hp, ← hv]
    exact hm

theorem alistGet?_eq_none_iff {κ β : Type} [DecidableEq κ] {l : List (κ × β)} {k : κ} :
    alistGet? l k = none ↔ ∀ v, ¬ (k, v) ∈ l := by
  unfold alistGet?
  rw [Option.map_eq_none', List.find?_eq_none]
  constructor
  · intro h v hv
    have := h (k, v) hv
    simp at this
  · intro h e he
    simp only [decide_eq_true_eq]
    intro hk
    exact h e.2 (by rw [← hk]; exact he)

theorem alistGet?_of_mem_nodup {κ β : Type} [DecidableEq κ] {l : List (κ × β)}
    (hnd : (l.map Prod.fst).Nodup) {k : κ} {v : β} (h : (k, v) ∈ l) :
    alistGet? l k = some v := by
  induction l with
  | nil => exact absurd h (List.not_mem_nil _)
  | cons e rest ih =>
    obtain ⟨k0, v0⟩ := e
    rw [alistGet?_cons]
    rw [List.map_cons, List.nodup_cons] at hnd
    rcases List.mem_cons.mp h with heq | hmem
    · obtain ⟨rfl, rfl⟩ := Prod.mk.injEq .. ▸ heq
      · rw [if_pos rfl]
    · by_cases hk : k0 = k
      · subst hk
        exact absurd (List.mem_map.mpr ⟨(k0, v), hmem, rfl⟩) hnd.1
      · rw [if_neg hk]
        exact ih hnd.2 hmem

theorem alistSet_absent {κ β : Type} [DecidableEq κ] (l : List (κ × β)) (k : κ) (v : β)
    (h : alistGet? l k = none) : alistSet l k v = l ++ [(k, v)] := by
  unfold alistSet
  rw [if_neg]
  unfold alistGet? at h
  rw [Option.map_eq_none'] at h
  rw [h]
  simp

theorem alistSet_present_keys {κ β : Type} [DecidableEq κ] (l : List (κ × β))
    (k : κ) (v : β) (h : (List.find? (fun e => e.1 = k) l).isSome = true) :
    (alistSet l k v).map Prod.fst = l.map Prod.fst := by
  unfold alistSet
  rw [if_pos h, List.map_map]
  apply List.map_congr_left
  intro e he
  by_cases hk : e.1 = k
  · simp [hk]
  · simp [hk]

theorem mem_alistSet_present {κ β : Type} [DecidableEq κ] (l : List (κ × β))
    (k : κ) (v : β) (h : (List.find? (fun e => e.1 = k) l).isSome = true)
    (k' : κ) (v' : β) :
    (k', v') ∈ alistSet l k v ↔
      ((¬ k' = k) ∧ (k', v') ∈ l) ∨ (k' = k ∧ v' = v) := by
  unfold alistSet
  rw [if_pos h]
  constructor
  · intro hm
    obtain ⟨e, he, heq⟩ := List.mem_map.mp hm
    by_cases hk : e.1 = k
    · rw [if_pos hk] at heq
      injection heq with h1 h2
      exact Or.inr ⟨h1.symm, h2.symm⟩
    · rw [if_neg hk] at heq
      left
      subst heq
      exact ⟨hk, he⟩
  · rintro (⟨hne, hm⟩ | ⟨rfl, rfl⟩)
    · refine List.mem_map.mpr ⟨(k', v'), hm, ?_⟩
      rw [if_neg hne]
    · obtain ⟨e, hsome⟩ := Option.isSome_iff_exists.mp h
      have he := List.mem_of_find?_eq_some hsome
      have hp := List.find?_some hsome
      simp only [decide_eq_true_eq] at hp
      refine List.mem_map.mpr ⟨e, he, ?_⟩
      rw [if_pos hp]

theorem mem_alistErase {κ β : Type} [DecidableEq κ] (l : List (κ × β)) (k : κ)
    (k' : κ) (v' : β) :
    (k', v') ∈ alistErase l k ↔ (k', v') ∈ l ∧ ¬ k' = k := by
  unfold alistErase
  rw [List.mem_filter]
  simp

theorem alistErase_keys_sublist {κ β : Type} [DecidableEq κ] (l : List (κ × β)) (k : κ) :
    ((alistErase l k).map Prod.fst).Sublist (l.map Prod.fst) :=
  List.Sublist.map Prod.fst (List.filter_sublist l)

theorem alistErase_values_sublist {κ β : Type} [DecidableEq κ] (l : List (κ × β)) (k : κ) :
    ((alistErase l k).map Prod.snd).Sublist (l.map Prod.snd) :=
  List.Sublist.map Prod.snd (List.filter_sublist l)

theorem alistGet?_alistErase_self {κ β : Type} [DecidableEq κ] (l : List (κ × β)) (k : κ) :
    alistGet? (alistErase l k) k = none := by
  rw [alistGet?_eq_none_iff]
  intro v hv
  exact ((mem_alistErase l k k v).mp hv).2 rfl

theorem alistGet?_alistErase_ne {κ β : Type} [DecidableEq κ] (l : List (κ × β))
    (k k' : κ) (h : ¬ k' = k) :
    alistGet? (alistErase l k) k' = alistGet? l k' := by
  induction l with
  | nil => rfl
  | cons e rest ih =>
    obtain ⟨k0, v0⟩ := e
    by_cases hk : k0 = k
    · have : alistErase ((k0, v0) :: rest) k = alistErase rest k := by
        unfold alistErase
        rw [List.filter_cons]
        simp [hk]
      rw [this, ih, alistGet?_cons, if_neg (fun hc : k0 = k' => h (hc ▸ hk))]
    · have : alistErase ((k0, v0) :: rest) k = (k0, v0) :: alistErase rest k := by
        unfold alistErase
        rw [List.filter_cons]
        simp [hk]
      rw [this, alistGet?_cons, alistGet?_cons]
      by_cases hk' : k0 = k'
      · rw [if_pos hk', if_pos hk']
      · rw [if_neg hk', if_neg hk']
        exact ih

theorem getD_append_lt {α : Type} [Inhabited α] (l l2 : List α) (j : Nat)
    (h : j < l.length) : (l ++ l2).getD j default = l.getD j default := by
  rw [List.getD_eq_getElem?_getD, List.getD_eq_getElem?_getD,
    List.getElem?_append, if_pos h]

theorem getD_append_len {α : Type} [Inhabited α] (l : List α) (x : α) :
    (l ++ [x]).getD l.length default = x := by
  rw [List.getD_eq_getElem?_getD, List.getElem?_append_right (le_refl _)]
  simp

theorem getD_listModify_self {α : Type} [Inhabited α] (l : List α) (i : Nat)
    (f : α → α) (h : i < l.length) :
    (listModify l i f).getD i default = f (l.getD i default) := by
  rw [List.getD_eq_getElem?_getD, ← List.get?_eq_getElem?, get?_listModify_self]
  rw [List.getD_eq_getElem?_getD, ← List.get?_eq_getElem?]
  cases hg : l.get? i with
  | none =>
    rw [List.get?_eq_getElem?] at hg
    exact absurd hg (by simp [h])
  | some x => rfl

/-! Event-list construction facts. -/

theorem eventsFrom_span_lower (spans : List Span) :
    ∀ (i : Nat) (p : Int) (e : SpanEvent), e ∈ eventsFrom i spans p → i ≤ e.span := by
  induction spans with
  | nil => intro i p e he; simp [eventsFrom] at he
  | cons s rest ih =>
    intro i p e he
    unfold eventsFrom at he
    rcases List.mem_append.mp he with h1 | h2
    · split_ifs at h1 with hp
      · rcases List.mem_cons.mp h1 with rfl | h1b
        · exact le_refl i
        · rw [List.mem_singleton] at h1b
          subst h1b
          exact le_refl i
      · exact absurd h1 (List.not_mem_nil e)
    · exact le_trans (Nat.le_succ i) (ih (i + 1) p e h2)

theorem filter_eventsFrom (spans : List Span) :
    ∀ (i : Nat) (p : Int) (k : Nat),
      (eventsFrom i spans p).filter (fun e => e.span = i + k) =
        (match spans.get? k with
         | some s =>
            if s.pos = p
            then [⟨s.start, true, i + k⟩, ⟨s.«end», false, i + k⟩]
            else ([] : List SpanEvent)
         | none => []) := by
  induction spans with
  | nil => intro i p k; simp [eventsFrom]
  | cons s rest ih =>
    intro i p k
    unfold eventsFrom
    rw [List.filter_append]
    cases k with
    | zero =>
      have htail : (eventsFrom (i + 1) rest p).filter (fun e => e.span = i + 0) = [] := by
        rw [List.filter_eq_nil]
        intro e he
        have := eventsFrom_span_lower rest (i + 1) p e he
        simp only [decide_eq_true_eq]
        omega
      rw [htail, List.append_nil]
      by_cases hp : s.pos = p
      · simp [hp, List.filter_cons]
      · simp [hp]
    | succ k2 =>
      have hhead : (if s.pos = p
          then [(⟨s.start, true, i⟩ : SpanEvent), ⟨s.«end», false, i⟩] else []).filter
            (fun e => e.span = i + (k2 + 1)) = [] := by
        rw [List.filter_eq_nil]
        intro e he
        split_ifs at he with hp
        · simp only [decide_eq_true_eq]
          rcases List.mem_cons.mp he with rfl | he2
          · dsimp only
            omega
          · rw [List.mem_singleton] at he2
            subst he2
            dsimp only
            omega
        · exact absurd he (List.not_mem_nil e)
      rw [hhead, List.nil_append]
      have harith : i + (k2 + 1) = (i + 1) + k2 := by omega
      rw [harith]
      exact ih (i + 1) p k2

/-! Stability facts for the modelled (stable) insertion sort. -/

theorem filter_insertionSort_const_key (pb : SpanEvent → Bool) (τ : Time) :
    ∀ l : List SpanEvent, (∀ e ∈ l, pb e = true → e.t = τ) →
      (List.insertionSort (fun a b => a.t ≤ b.t) l).filter pb = l.filter pb := by
  intro l
  induction l with
  | nil => intro h; rfl
  | cons x l ih =>
    intro h
    have hl : ∀ e ∈ l, pb e = true → e.t = τ :=
      fun e he => h e (List.mem_cons_of_mem _ he)
    have hmemS : ∀ e ∈ List.insertionSort (fun a b => a.t ≤ b.t) l, pb e = true → e.t = τ := by
      intro e he
      exact hl e ((List.mem_insertionSort _).mp he)
    show (List.orderedInsert _ x _).filter pb = _
    rw [List.orderedInsert_eq_take_drop, List.filter_append, List.filter_cons,
      List.filter_cons]
    cases hx : pb x with
    | false =>
      have hjoin :
          ((List.insertionSort (fun a b => a.t ≤ b.t) l).takeWhile
            (fun b => ¬ x.t ≤ b.t)).filter pb ++
          ((List.insertionSort (fun a b => a.t ≤ b.t) l).dropWhile
            (fun b => ¬ x.t ≤ b.t)).filter pb =
          (List.insertionSort (fun a b => a.t ≤ b.t) l).filter pb := by
        rw [← List.filter_append, List.takeWhile_append_dropWhile]
      simp only [hx, Bool.false_eq_true, if_false]
      rw [hjoin, ih hl]
    | true =>
      have htake :
          ((List.insertionSort (fun a b => a.t ≤ b.t) l).takeWhile
            (fun b => ¬ x.t ≤ b.t)).filter pb = [] := by
        rw [List.filter_eq_nil]
        intro e he
        have hlt := List.mem_takeWhile_imp he
        simp only [decide_eq_true_eq] at hlt
        intro hpe
        have hmem : e ∈ List.insertionSort (fun a b => a.t ≤ b.t) l :=
          (List.takeWhile_prefix _).sublist.mem he
        have het : e.t = τ := hmemS e hmem hpe
        have hxt : x.t = τ := h x (List.mem_cons_self _ _) hx
        rw [het, hxt] at hlt
        exact hlt (le_refl τ)
      have hdrop :
          ((List.insertionSort (fun a b => a.t ≤ b.t) l).dropWhile
            (fun b => ¬ x.t ≤ b.t)).filter pb =
          (List.insertionSort (fun a b => a.t ≤ b.t) l).filter pb := by
        conv_rhs => rw [← List.takeWhile_append_dropWhile
          (p := fun b => ¬ x.t ≤ b.t)
          (l := List.insertionSort (fun a b => a.t ≤ b.t) l)]
        rw [List.filter_append, htake, List.nil_append]
      simp only [hx, if_true]
      rw [htake, List.nil_append, hdrop, ih hl]

theorem perm_pair_cases {α : Type} {l : List α} {a b : α} (h : l.Perm [a, b]) :
    l = [a, b] ∨ l = [b, a] := by
  match l, h.length_eq with
  | [x, y], _ =>
    have hx : x ∈ [a, b] := h.mem_iff.mp (List.mem_cons_self _ _)
    rcases List.mem_cons.mp hx with rfl | hx2
    · have hy : [y].Perm [b] := (h.cons_inv)
      rw [List.perm_singleton] at hy
      simp only [List.cons.injEq, and_true] at hy
      subst hy
      exact Or.inl rfl
    · rw [List.mem_singleton] at hx2
      subst hx2
      have hy : [y].Perm [a] := (h.trans (List.Perm.swap x a [])).cons_inv
      rw [List.perm_singleton] at hy
      simp only [List.cons.injEq, and_true] at hy
      subst hy
      exact Or.inr rfl

/-- The per-lane event list handed to the sweep: after the (stable) sort,
each span index still contributes either nothing or exactly its
start-event followed by its end-event. -/
theorem initial_filter (spans : List Span)
    (H : ∀ s ∈ spans, s.start ≤ s.«end») (p : Int) (sp : Nat) :
    (List.insertionSort (fun a b => a.t ≤ b.t) (eventsFor spans p)).filter
        (fun e => e.span = sp) = [] ∨
    ∃ s, spans.get? sp = some s ∧
      (List.insertionSort (fun a b => a.t ≤ b.t) (eventsFor spans p)).filter
          (fun e => e.span = sp) =
        [⟨s.start, true, sp⟩, ⟨s.«end», false, sp⟩] := by
  have hF := filter_eventsFrom spans 0 p sp
  simp only [Nat.zero_add] at hF
  have hperm : (List.insertionSort (fun a b => a.t ≤ b.t)
        (eventsFor spans p)).filter (fun e => e.span = sp) |>.Perm
      ((eventsFor spans p).filter (fun e => e.span = sp)) :=
    (List.perm_insertionSort _ _).filter _
  cases hs : spans.get? sp with
  | none =>
    left
    rw [hs] at hF
    unfold eventsFor at hperm
    rw [hF] at hperm
    exact hperm.eq_nil
  | some s =>
    by_cases hp : s.pos = p
    · rw [hs] at hF
      dsimp only at hF
      rw [if_pos hp] at hF
      have hmem : s ∈ spans := List.get?_mem hs
      have hse : s.start ≤ s.«end» := H s hmem
      rcases eq_or_lt_of_le hse with heq | hlt
      · right
        refine ⟨s, rfl, ?_⟩
        rw [filter_insertionSort_const_key _ s.start]
        · unfold eventsFor
          exact hF
        · intro e he hpe
          have hef : e ∈ (eventsFrom 0 spans p).filter (fun e => e.span = sp) :=
            List.mem_filter.mpr ⟨he, hpe⟩
          rw [hF] at hef
          rcases List.mem_cons.mp hef with rfl | hef2
          · rfl
          · rw [List.mem_singleton] at hef2
            subst hef2
            exact heq.symm
      · right
        refine ⟨s, rfl, ?_⟩
        unfold eventsFor at hperm
        rw [hF] at hperm
        rcases perm_pair_cases hperm with hres | hres
        · exact hres
        · exfalso
          have hsorted : List.Pairwise (fun a b => a.t ≤ b.t)
              (List.insertionSort (fun a b => a.t ≤ b.t) (eventsFor spans p)) :=
            List.sorted_insertionSort _ _
          have hpairf : List.Pairwise (fun a b => a.t ≤ b.t)
              ((List.insertionSort (fun a b => a.t ≤ b.t)
                (eventsFor spans p)).filter (fun e => e.span = sp)) :=
            List.Pairwise.sublist (List.filter_sublist _) hsorted
          unfold eventsFor at hpairf
          rw [hres] at hpairf
          have := (List.pairwise_cons.mp hpairf).1 _ (List.mem_cons_self _ _)
          exact absurd this (not_le.mpr hlt)
    · left
      rw [hs] at hF
      dsimp only at hF
      rw [if_neg hp] at hF
      unfold eventsFor at hperm
      rw [hF] at hperm
      exact hperm.eq_nil

/-! More association-list facts used by the repack-loop proof. -/

theorem find?_isSome_of_mem {κ β : Type} [DecidableEq κ] {l : List (κ × β)}
    {k : κ} {v : β} (h : (k, v) ∈ l) :
    (List.find? (fun e => e.1 = k) l).isSome = true := by
  induction l with
  | nil => exact absurd h (List.not_mem_nil _)
  | cons e rest ih =>
    rw [List.find?_cons]
    rcases List.mem_cons.mp h with rfl | hmem
    · simp
    · cases hd : (fun (e : κ × β) => decide (e.1 = k)) e with
      | true => simp [hd]
      | false =>
        simp only [hd]
        exact ih hmem

theorem alistGet?_eq_none_iff_keys {κ β : Type} [DecidableEq κ]
    {l : List (κ × β)} {k : κ} :
    alistGet? l k = none ↔ ¬ k ∈ l.map Prod.fst := by
  rw [alistGet?_eq_none_iff]
  constructor
  · intro h hk
    obtain ⟨e, he, hke⟩ := List.mem_map.mp hk
    exact h e.2 (by rw [← hke]; exact he)
  · intro h v hv
    exact h (List.mem_map.mpr ⟨(k, v), hv, rfl⟩)

theorem key_unique {κ β : Type} [DecidableEq κ] {l : List (κ × β)}
    (hk : (l.map Prod.fst).Nodup) {k : κ} {v v' : β}
    (h1 : (k, v) ∈ l) (h2 : (k, v') ∈ l) : v = v' := by
  have e1 := alistGet?_of_mem_nodup hk h1
  have e2 := alistGet?_of_mem_nodup hk h2
  rw [e1] at e2
  exact Option.some.injEq .. ▸ e2.symm ▸ rfl

theorem value_unique {κ β : Type} [DecidableEq β] {l : List (κ × β)}
    (hv : (l.map Prod.snd).Nodup) {k k' : κ} {v : β}
    (h1 : (k, v) ∈ l) (h2 : (k', v) ∈ l) : k = k' := by
  induction l with
  | nil => exact absurd h1 (List.not_mem_nil _)
  | cons e rest ih =>
    rw [List.map_cons, List.nodup_cons] at hv
    rcases List.mem_cons.mp h1 with rfl | hm1
    · rcases List.mem_cons.mp h2 with heq | hm2
      · exact (congrArg Prod.fst heq).symm
      · exact absurd (List.mem_map.mpr ⟨(k', v), hm2, rfl⟩) hv.1
    · rcases List.mem_cons.mp h2 with rfl | hm2
      · exact absurd (List.mem_map.mpr ⟨(k, v), hm1, rfl⟩) hv.1
      · exact ih hv.2 hm1 hm2

theorem values_nodup_set {κ : Type} [DecidableEq κ] (l : List (κ × Nat)) (k : κ)
    (N : Nat) (hk : (l.map Prod.fst).Nodup) (hb : ∀ e ∈ l, e.2 < N)
    (hv : (l.map Prod.snd).Nodup)
    (hp : (List.find? (fun e => e.1 = k) l).isSome = true) :
    ((alistSet l k N).map Prod.snd).Nodup := by
  unfold alistSet
  rw [if_pos hp]
  clear hp
  induction l with
  | nil => exact List.nodup_nil
  | cons e rest ih =>
    obtain ⟨k0, v0⟩ := e
    rw [List.map_cons, List.nodup_cons] at hk hv
    rw [List.map_cons, List.map_cons, List.nodup_cons]
    by_cases hke : k0 = k
    · rw [if_pos hke]
      have hrest : rest.map (fun e => if e.1 = k then (k, N) else e) = rest := by
        have hmapid : rest.map (fun e => if e.1 = k then (k, N) else e) =
            rest.map id := by
          apply List.map_congr_left
          intro e he
          rw [if_neg (fun hek : e.1 = k =>
            hk.1 (List.mem_map.mpr ⟨e, he, hek.trans hke.symm⟩))]
          rfl
        rw [hmapid, List.map_id]
      rw [hrest]
      constructor
      · intro hc
        obtain ⟨e, he, hev⟩ := List.mem_map.mp hc
        have hlt := hb e (List.mem_cons_of_mem _ he)
        rw [hev] at hlt
        exact absurd hlt (lt_irrefl _)
      · exact hv.2
    · rw [if_neg hke]
      constructor
      · intro hc
        obtain ⟨e, he, hev⟩ := List.mem_map.mp hc
        obtain ⟨e0, he0, hfe⟩ := List.mem_map.mp he
        by_cases hek : e0.1 = k
        · rw [if_pos hek] at hfe
          have hNv : N = (k0, v0).2 := by rw [← hfe] at hev; exact hev
          exact absurd (lt_of_le_of_lt (le_of_eq hNv)
            (hb (k0, v0) (List.mem_cons_self _ _))) (lt_irrefl N)
        · rw [if_neg hek] at hfe
          subst hfe
          exact hv.1 (List.mem_map.mpr ⟨e0, he0, hev⟩)
      · exact ih hk.2 (fun e he => hb e (List.mem_cons_of_mem _ he)) hv.2

theorem alistGet?_none_of_keys_eq {κ β : Type} [DecidableEq κ]
    {l1 l2 : List (κ × β)} (h : l1.map Prod.fst = l2.map Prod.fst) (k : κ) :
    (alistGet? l1 k = none ↔ alistGet? l2 k = none) := by
  rw [alistGet?_eq_none_iff_keys, alistGet?_eq_none_iff_keys, h]

/-! The repack loop preserves the sweep core and the active-key set. -/

theorem repackLoop_spec (spans : List Span) (evT packT : Time) (n : Int)
    (rest : List SpanEvent) (hpe : packT ≤ evT)
    (hre : ∀ e ∈ rest, evT ≤ e.t) :
    ∀ (ord : List Nat), ord.Nodup →
      ∀ (subs : List SubSpan) (act : List (Nat × Nat)) (i : Int),
        SweepCore spans subs act rest →
        (∀ j ∈ ord, ∃ sp, (sp, j) ∈ act) →
        0 ≤ i → i + (ord.length : Int) = n →
        SweepCore spans (repackLoop evT packT n subs act ord i).1
          (repackLoop evT packT n subs act ord i).2 rest ∧
        ((repackLoop evT packT n subs act ord i).2).map Prod.fst =
          act.map Prod.fst := by
  intro ord
  induction ord with
  | nil =>
    intro _ subs act i hcore _ _ _
    exact ⟨hcore, rfl⟩
  | cons j ordR ih =>
    intro hnd subs act i hcore hmem hi hlen
    obtain ⟨hbase, hclosed, hwf, hact⟩ := hcore
    obtain ⟨hkeys, hvals, hbound⟩ := hwf
    have hndR : ordR.Nodup := (List.nodup_cons.mp hnd).2
    have hjnot : ¬ j ∈ ordR := (List.nodup_cons.mp hnd).1
    obtain ⟨sp, hspj⟩ := hmem j (List.mem_cons_self _ _)
    have hjlen : j < subs.length := hbound (sp, j) hspj
    have hspan : (subs.getD j default).span = sp := (hact sp j hspj).1
    obtain ⟨p, hp, hfilt⟩ := (hact sp j hspj).2
    have hpend : (⟨p.«end», false, sp⟩ : SpanEvent) ∈ rest := by
      have hm : (⟨p.«end», false, sp⟩ : SpanEvent) ∈
          rest.filter (fun e => e.span = sp) := by
        rw [hfilt]
        exact List.mem_cons_self _ _
      exact List.mem_of_mem_filter hm
    have hevend : evT ≤ p.«end» := hre _ hpend
    have hpj := hbase j hjlen
    unfold BaseOK at hpj
    rw [hspan, hp] at hpj
    obtain ⟨q, hq, hqs, hqe, hq1, hq2⟩ := hpj
    obtain rfl := Option.some.inj hq
    have hlen' : i + ((ordR.length : Int) + 1) = n := by
      simp only [List.length_cons] at hlen
      push_cast at hlen
      exact hlen
    have hn1 : (1 : Int) ≤ n := by omega
    have hin : i < n := by omega
    simp only [repackLoop]
    by_cases hcut : (subs.getD j default).start < packT
    · rw [if_pos hcut, hspan, length_listModify]
      set S2 := listModify subs j (fun s0 => { s0 with «end» := evT }) ++
        [{ span := sp, subindex := i, subindices := n,
           start := packT, «end» := 0, first := false, last := false }] with hS2
      set A2 := alistSet act sp subs.length with hA2
      have hfind : (List.find? (fun e => e.1 = sp) act).isSome = true :=
        find?_isSome_of_mem hspj
      have hkeq : A2.map Prod.fst = act.map Prod.fst := by
        rw [hA2]
        exact alistSet_present_keys act sp subs.length hfind
      have hS2len : S2.length = subs.length + 1 := by
        rw [hS2, List.length_append, length_listModify]
        rfl
      have hgj : S2.getD j default = { subs.getD j default with «end» := evT } := by
        rw [hS2, getD_append_lt _ _ _ (by rw [length_listModify]; exact hjlen),
          getD_listModify_self _ _ _ hjlen]
      have hgnew : S2.getD subs.length default =
          ({ span := sp, subindex := i, subindices := n,
             start := packT, «end» := 0, first := false, last := false } : SubSpan) := by
        rw [hS2]
        have h := getD_append_len (listModify subs j (fun s0 => { s0 with «end» := evT }))
          ({ span := sp, subindex := i, subindices := n,
             start := packT, «end» := 0, first := false, last := false } : SubSpan)
        rw [length_listModify] at h
        exact h
      have hgold : ∀ j2, j2 < subs.length → ¬ j2 = j →
          S2.getD j2 default = subs.getD j2 default := by
        intro j2 h2 hne
        rw [hS2, getD_append_lt _ _ _ (by rw [length_listModify]; exact h2),
          getD_listModify_ne _ _ _ _ (fun hc : j = j2 => hne hc.symm)]
      have hmemA2 : ∀ k v, ((k, v) ∈ A2 ↔
          ((¬ k = sp) ∧ (k, v) ∈ act) ∨ (k = sp ∧ v = subs.length)) := by
        intro k v
        rw [hA2]
        exact mem_alistSet_present act sp subs.length hfind k v
      have hbase2 : ∀ j2, j2 < S2.length → BaseOK spans (S2.getD j2 default) := by
        intro j2 h2
        rw [hS2len] at h2
        by_cases hje : j2 = j
        · subst hje
          rw [hgj]
          exact hbase j2 hjlen
        · rcases Nat.lt_succ_iff_lt_or_eq.mp h2 with hlt | heq
          · rw [hgold j2 hlt hje]
            exact hbase j2 hlt
          · subst heq
            rw [hgnew]
            unfold BaseOK
            dsimp only
            refine ⟨p, hp, ?_, ?_, hn1, hin⟩
            · exact le_of_lt (lt_of_le_of_lt hqs hcut)
            · exact le_trans hpe hevend
      have hclosed2 : ClosedOK spans ⟨S2, A2, 0⟩ := by
        unfold ClosedOK
        dsimp only
        intro j2 h2 hnotref
        rw [hS2len] at h2
        by_cases hje : j2 = j
        · subst hje
          rw [hgj]
          unfold EndOK
          dsimp only
          rw [hspan]
          refine ⟨p, hp, ?_, hevend⟩
          exact le_trans (le_of_lt (lt_of_le_of_lt hqs hcut)) hpe
        · rcases Nat.lt_succ_iff_lt_or_eq.mp h2 with hlt | heq
          · have hnotref0 : ¬ ∃ e ∈ act, e.2 = j2 := by
              rintro ⟨⟨k0, v0⟩, he, hv⟩
              dsimp only at hv
              by_cases hk0 : k0 = sp
              · subst hk0
                have := key_unique hkeys he hspj
                exact hje (by rw [← hv, this])
              · exact hnotref ⟨(k0, v0), (hmemA2 k0 v0).mpr (Or.inl ⟨hk0, he⟩), hv⟩
            rw [hgold j2 hlt hje]
            exact hclosed j2 hlt hnotref0
          · exact absurd ⟨(sp, subs.length),
              (hmemA2 sp subs.length).mpr (Or.inr ⟨rfl, rfl⟩), heq.symm⟩ hnotref
      have hwf2 : ActiveWF ⟨S2, A2, 0⟩ := by
        unfold ActiveWF
        dsimp only
        refine ⟨?_, ?_, ?_⟩
        · rw [hkeq]
          exact hkeys
        · rw [hA2]
          exact values_nodup_set act sp subs.length hkeys
            (fun e he => hbound e he) hvals hfind
        · intro e he
          obtain ⟨k0, v0⟩ := e
          rcases (hmemA2 k0 v0).mp he with ⟨_, hm⟩ | ⟨_, hv⟩
          · dsimp only
            rw [hS2len]
            exact Nat.lt_succ_of_lt (hbound _ hm)
          · dsimp only
            rw [hS2len, hv]
            exact Nat.lt_succ_self _
      have hact2 : ActiveOK spans ⟨S2, A2, 0⟩ rest := by
        unfold ActiveOK
        dsimp only
        intro sp2 j2 hm
        rcases (hmemA2 sp2 j2).mp hm with ⟨hne, hmold⟩ | ⟨hk, hv⟩
        · have hj2 : j2 < subs.length := hbound _ hmold
          have hj2ne : ¬ j2 = j := by
            intro hc
            subst hc
            exact hne (value_unique hvals hmold hspj)
          rw [hgold j2 hj2 hj2ne]
          exact hact sp2 j2 hmold
        · subst hk
          subst hv
          constructor
          · rw [hgnew]
          · exact ⟨p, hp, hfilt⟩
      have hmem2 : ∀ j2 ∈ ordR, ∃ sp2, (sp2, j2) ∈ A2 := by
        intro j2 hj2
        obtain ⟨sp2, hm⟩ := hmem j2 (List.mem_cons_of_mem _ hj2)
        have hj2ne : ¬ j2 = j := fun hc => hjnot (hc ▸ hj2)
        have hne : ¬ sp2 = sp := by
          intro hc
          subst hc
          exact hj2ne (key_unique hkeys hm hspj)
        exact ⟨sp2, (hmemA2 sp2 j2).mpr (Or.inl ⟨hne, hm⟩)⟩
      have hcore2 : SweepCore spans S2 A2 rest := ⟨hbase2, hclosed2, hwf2, hact2⟩
      have H := ih hndR S2 A2 (i + 1) hcore2 hmem2 (by omega) (by omega)
      exact ⟨H.1, H.2.trans hkeq⟩
    · rw [if_neg hcut]
      set S2 := listModify subs j
        (fun s0 => { s0 with subindex := i, subindices := n }) with hS2
      have hS2len : S2.length = subs.length := by
        rw [hS2, length_listModify]
      have hgj : S2.getD j default =
          { subs.getD j default with subindex := i, subindices := n } := by
        rw [hS2, getD_listModify_self _ _ _ hjlen]
      have hgold : ∀ j2, ¬ j2 = j → S2.getD j2 default = subs.getD j2 default := by
        intro j2 hne
        rw [hS2, getD_listModify_ne _ _ _ _ (fun hc : j = j2 => hne hc.symm)]
      have hbase2 : ∀ j2, j2 < S2.length → BaseOK spans (S2.getD j2 default) := by
        intro j2 h2
        rw [hS2len] at h2
        by_cases hje : j2 = j
        · subst hje
          rw [hgj]
          unfold BaseOK
          dsimp only
          rw [hspan]
          exact ⟨p, hp, hqs, hqe, hn1, hin⟩
        · rw [hgold j2 hje]
          exact hbase j2 h2
      have hclosed2 : ClosedOK spans ⟨S2, act, 0⟩ := by
        unfold ClosedOK
        dsimp only
        intro j2 h2 hnr
        have hje : ¬ j2 = j := by
          intro hc
          exact hnr ⟨(sp, j), hspj, hc.symm⟩
        rw [hgold j2 hje]
        exact hclosed j2 (by rw [hS2len] at h2; exact h2) hnr
      have hwf2 : ActiveWF ⟨S2, act, 0⟩ := by
        unfold ActiveWF
        dsimp only
        exact ⟨hkeys, hvals, fun e he => by rw [hS2len]; exact hbound e he⟩
      have hact2 : ActiveOK spans ⟨S2, act, 0⟩ rest := by
        unfold ActiveOK
        dsimp only
        intro sp2 j2 hm
        refine ⟨?_, (hact sp2 j2 hm).2⟩
        by_cases hje : j2 = j
        · subst hje
          rw [hgj]
          exact (hact sp2 j2 hm).1
        · rw [hgold j2 hje]
          exact (hact sp2 j2 hm).1
      have hcore2 : SweepCore spans S2 act rest := ⟨hbase2, hclosed2, hwf2, hact2⟩
      have hmem2 : ∀ j2 ∈ ordR, ∃ sp2, (sp2, j2) ∈ act :=
        fun j2 hj2 => hmem j2 (List.mem_cons_of_mem _ hj2)
      have H := ih hndR S2 act (i + 1) hcore2 hmem2 (by omega) (by omega)
      exact H

/-- A successful repack re-establishes the full invariant with a zero
`packTime`. -/
theorem repack_result_inv (spans : List Span) (evT PT : Time)
    (rest : List SpanEvent) (subs1 rsubs : List SubSpan)
    (act1 ract : List (Nat × Nat)) (ord : List Nat)
    (hperm : ord.Perm (act1.map Prod.snd))
    (hRL : repackLoop evT PT (ord.length : Int) subs1 act1 ord 0 = (rsubs, ract))
    (hcore : SweepCore spans subs1 act1 rest)
    (hinact : ∀ sp, alistGet? act1 sp = none →
      rest.filter (fun e => e.span = sp) = [] ∨
      ∃ p, spans.get? sp = some p ∧
        rest.filter (fun e => e.span = sp) =
          [⟨p.start, true, sp⟩, ⟨p.«end», false, sp⟩])
    (hPTle : PT ≤ evT) (hPTrest : ∀ e ∈ rest, evT ≤ e.t)
    (hsorted : List.Pairwise (fun a b => a.t ≤ b.t) rest) :
    SweepInv spans ⟨rsubs, ract, 0⟩ rest := by
  obtain ⟨hb0, hc0, hw0, ha0⟩ := hcore
  obtain ⟨hk0, hv0, hbd0⟩ := hw0
  have hnd : ord.Nodup := hperm.nodup_iff.mpr hv0
  have hcov : ∀ j ∈ ord, ∃ sp, (sp, j) ∈ act1 := by
    intro j hj
    have hjm : j ∈ act1.map Prod.snd := hperm.mem_iff.mp hj
    obtain ⟨e, he, hev⟩ := List.mem_map.mp hjm
    obtain ⟨k, v⟩ := e
    dsimp only at hev
    subst hev
    exact ⟨k, he⟩
  have H := repackLoop_spec spans evT PT (ord.length : Int) rest hPTle hPTrest
    ord hnd subs1 act1 0 ⟨hb0, hc0, ⟨hk0, hv0, hbd0⟩, ha0⟩ hcov (le_refl 0)
    (by omega)
  rw [hRL] at H
  dsimp only at H
  obtain ⟨⟨hb1, hc1, hw1, ha1⟩, hkeq⟩ := H
  refine ⟨hb1, hc1, hw1, ha1, ?_, Or.inl rfl, hsorted⟩
  intro sp hnone
  exact hinact sp ((alistGet?_none_of_keys_eq hkeq sp).mp hnone)

/-- One sweep step preserves the invariant, consuming the head event. -/
theorem sweepStep_inv (spans : List Span)
    (hspans : ∀ s ∈ spans, s.start ≤ s.«end»)
    (subs : List SubSpan) (act : List (Nat × Nat)) (pt : Time)
    (ev : SpanEvent) (rest : List SpanEvent)
    (hinv : SweepInv spans ⟨subs, act, pt⟩ (ev :: rest)) :
    SweepInv spans
      (sweepStep spans ⟨subs, act, pt⟩ ev ((rest.head?).map (fun e => e.t))) rest := by
  obtain ⟨hbase, hclosed, hwf, hact, hinact, hpack, hsorted⟩ := hinv
  obtain ⟨hkeys, hvals, hbound⟩ := hwf
  have hrestle : ∀ e ∈ rest, ev.t ≤ e.t := (List.pairwise_cons.mp hsorted).1
  have hsortrest : List.Pairwise (fun a b => a.t ≤ b.t) rest :=
    (List.pairwise_cons.mp hsorted).2
  have hPTle : (if pt = 0 then ev.t else pt) ≤ ev.t := by
    by_cases h0 : pt = 0
    · rw [if_pos h0]
    · rw [if_neg h0]
      rcases hpack with h | ⟨_, hall⟩
      · exact absurd h h0
      · exact hall ev (List.mem_cons_self _ _)
  have hPTrest : ∀ e ∈ rest, (if pt = 0 then ev.t else pt) ≤ e.t :=
    fun e he => le_trans hPTle (hrestle e he)
  cases hstart : ev.start with
  | true =>
    have hnone : alistGet? act ev.span = none := by
      cases hg : alistGet? act ev.span with
      | none => rfl
      | some j =>
        exfalso
        have hm := alistGet?_mem hg
        obtain ⟨p, hp, hfilt⟩ := (hact ev.span j hm).2
        rw [List.filter_cons, if_pos (by simp)] at hfilt
        injection hfilt with h1 h2
        have hb := congrArg SpanEvent.start h1
        rw [hstart] at hb
        simp at hb
    have hnotmem : ¬ ev.span ∈ act.map Prod.fst := alistGet?_eq_none_iff_keys.mp hnone
    rcases hinact ev.span hnone with hemp | ⟨p, hp, hpair⟩
    · rw [List.filter_cons, if_pos (by simp)] at hemp
      exact absurd hemp (List.cons_ne_nil _ _)
    rw [List.filter_cons, if_pos (by simp)] at hpair
    injection hpair with h1 hfrest
    have hgetD : spans.getD ev.span default = p := by
      rw [List.getD_eq_getElem?_getD, ← List.get?_eq_getElem?, hp]
      rfl
    have hpse : p.start ≤ p.«end» := hspans p (List.get?_mem hp)
    have hmemA1 : ∀ k v, ((k, v) ∈ act ++ [(ev.span, subs.length)] ↔
        (k, v) ∈ act ∨ (k = ev.span ∧ v = subs.length)) := by
      intro k v
      rw [List.mem_append, List.mem_singleton, Prod.mk.injEq]
    have hb1 : ∀ j2,
        j2 < (subs ++ [(⟨ev.span, 0, 1, p.start, p.«end», true, false⟩ : SubSpan)]).length →
        BaseOK spans
          ((subs ++ [(⟨ev.span, 0, 1, p.start, p.«end», true, false⟩ : SubSpan)]).getD
            j2 default) := by
      intro j2 h2
      rw [List.length_append, List.length_singleton] at h2
      rcases Nat.lt_succ_iff_lt_or_eq.mp h2 with hlt | heq
      · rw [getD_append_lt _ _ _ hlt]
        exact hbase j2 hlt
      · rw [heq, getD_append_len]
        unfold BaseOK
        dsimp only
        exact ⟨p, hp, le_refl _, hpse, by decide, by decide⟩
    have hc1 : ∀ X : Time, ClosedOK spans
        ⟨subs ++ [⟨ev.span, 0, 1, p.start, p.«end», true, false⟩],
         act ++ [(ev.span, subs.length)], X⟩ := by
      intro X
      unfold ClosedOK
      dsimp only
      intro j2 h2 hnr
      rw [List.length_append, List.length_singleton] at h2
      rcases Nat.lt_succ_iff_lt_or_eq.mp h2 with hlt | heq
      · rw [getD_append_lt _ _ _ hlt]
        refine hclosed j2 hlt ?_
        rintro ⟨e, he, hv⟩
        exact hnr ⟨e, List.mem_append_left _ he, hv⟩
      · exact absurd ⟨(ev.span, subs.length),
          List.mem_append_right _ (List.mem_singleton_self _), heq.symm⟩ hnr
    have hw1 : ∀ X : Time, ActiveWF
        ⟨subs ++ [⟨ev.span, 0, 1, p.start, p.«end», true, false⟩],
         act ++ [(ev.span, subs.length)], X⟩ := by
      intro X
      unfold ActiveWF
      dsimp only
      refine ⟨?_, ?_, ?_⟩
      · simp only [List.map_append, List.map_cons, List.map_nil]
        rw [List.nodup_append]
        refine ⟨hkeys, List.nodup_singleton _, ?_⟩
        intro a ha hb
        rw [List.mem_singleton] at hb
        subst hb
        exact hnotmem ha
      · simp only [List.map_append, List.map_cons, List.map_nil]
        rw [List.nodup_append]
        refine ⟨hvals, List.nodup_singleton _, ?_⟩
        intro a ha hb
        rw [List.mem_singleton] at hb
        subst hb
        obtain ⟨e, he, hev⟩ := List.mem_map.mp ha
        have := hbound e he
        rw [hev] at this
        exact absurd this (lt_irrefl _)
      · intro e he
        rw [List.length_append, List.length_singleton]
        obtain ⟨k, v⟩ := e
        rcases (hmemA1 k v).mp he with hmold | ⟨_, hv⟩
        · exact Nat.lt_succ_of_lt (hbound _ hmold)
        · dsimp only
          rw [hv]
          exact Nat.lt_succ_self _
    have ha1 : ∀ X : Time, ActiveOK spans
        ⟨subs ++ [⟨ev.span, 0, 1, p.start, p.«end», true, false⟩],
         act ++ [(ev.span, subs.length)], X⟩ rest := by
      intro X
      unfold ActiveOK
      dsimp only
      intro sp2 j2 hm2
      rcases (hmemA1 sp2 j2).mp hm2 with hmold | ⟨hk, hv⟩
      · have hj2 : j2 < subs.length := hbound _ hmold
        have hsp2 : ¬ sp2 = ev.span := by
          intro hc
          rw [hc] at hmold
          exact hnotmem (List.mem_map.mpr ⟨(ev.span, j2), hmold, rfl⟩)
        rw [getD_append_lt _ _ _ hj2]
        obtain ⟨hspan2, p2, hp2, hfilt2⟩ := hact sp2 j2 hmold
        refine ⟨hspan2, p2, hp2, ?_⟩
        have hcond : ¬ ((fun e => decide (e.span = sp2)) ev = true) := by
          simp only [decide_eq_true_eq]
          exact fun hc => hsp2 hc.symm
        rw [List.filter_cons, if_neg hcond] at hfilt2
        exact hfilt2
      · subst hk
        subst hv
        rw [getD_append_len]
        exact ⟨rfl, p, hp, hfrest⟩
    have hi1 : ∀ X : Time, InactiveOK spans
        ⟨subs ++ [⟨ev.span, 0, 1, p.start, p.«end», true, false⟩],
         act ++ [(ev.span, subs.length)], X⟩ rest := by
      intro X
      unfold InactiveOK
      dsimp only
      intro sp2 hnone2
      have hne : ¬ sp2 = ev.span := by
        intro hc
        subst hc
        rw [alistGet?_eq_none_iff] at hnone2
        exact hnone2 subs.length ((hmemA1 ev.span subs.length).mpr (Or.inr ⟨rfl, rfl⟩))
      have hnone0 : alistGet? act sp2 = none := by
        rw [alistGet?_eq_none_iff] at hnone2 ⊢
        intro v hv
        exact hnone2 v ((hmemA1 sp2 v).mpr (Or.inl hv))
      have hcond : ¬ ((fun e => decide (e.span = sp2)) ev = true) := by
        simp only [decide_eq_true_eq]
        exact fun hc => hne hc.symm
      rcases hinact sp2 hnone0 with hemp2 | ⟨p2, hp2, hpair2⟩
      · left
        rw [List.filter_cons, if_neg hcond] at hemp2
        exact hemp2
      · right
        refine ⟨p2, hp2, ?_⟩
        rw [List.filter_cons, if_neg hcond] at hpair2
        exact hpair2
    simp only [sweepStep, hstart, eq_self_iff_true, if_true]
    rw [hgetD, alistSet_absent act ev.span subs.length hnone]
    dsimp only
    set PT := if pt = 0 then ev.t else pt with hPT
    split_ifs with hco hz
    · have hne : ¬ rest = [] := by
        intro hrnil
        rw [hrnil] at hco
        simp at hco
      exact ⟨hb1, hc1 _, hw1 _, ha1 _, hi1 _, Or.inr ⟨hne, hPTrest⟩, hsortrest⟩
    · exact absurd hz.2 (by simp)
    · exact repack_result_inv spans ev.t PT rest _ _ _ _ _
        (List.perm_insertionSort _ _) rfl ⟨hb1, hc1 0, hw1 0, ha1 0⟩ (hi1 0)
        hPTle hrestle hsortrest
  | false =>
    have hsome : ∃ j, alistGet? act ev.span = some j := by
      cases hgx : alistGet? act ev.span with
      | some j => exact ⟨j, rfl⟩
      | none =>
        exfalso
        rcases hinact ev.span hgx with hemp | ⟨p2, hp2, hpair2⟩
        · rw [List.filter_cons, if_pos (by simp)] at hemp
          exact List.cons_ne_nil _ _ hemp
        · rw [List.filter_cons, if_pos (by simp)] at hpair2
          injection hpair2 with h1 h2
          have hb := congrArg SpanEvent.start h1
          rw [hstart] at hb
          simp at hb
    obtain ⟨j, hg⟩ := hsome
    have hm := alistGet?_mem hg
    have hjlen : j < subs.length := hbound _ hm
    obtain ⟨hspanj, p, hp, hfilt⟩ := hact ev.span j hm
    rw [List.filter_cons, if_pos (by simp)] at hfilt
    injection hfilt with h1 hfrest
    have hevt : ev.t = p.«end» := congrArg SpanEvent.t h1
    have hpse : p.start ≤ p.«end» := hspans p (List.get?_mem hp)
    have hglen : (listModify subs j
        (fun s => { s with «end» := ev.t, last := true })).length = subs.length :=
      length_listModify _ _ _
    have hgj : (listModify subs j
        (fun s => { s with «end» := ev.t, last := true })).getD j default =
        { subs.getD j default with «end» := ev.t, last := true } :=
      getD_listModify_self _ _ _ hjlen
    have hgold : ∀ j2, ¬ j2 = j →
        (listModify subs j
          (fun s => { s with «end» := ev.t, last := true })).getD j2 default =
        subs.getD j2 default := by
      intro j2 hne
      exact getD_listModify_ne _ _ _ _ (fun hc : j = j2 => hne hc.symm)
    have hb1 : ∀ j2, j2 < (listModify subs j
        (fun s => { s with «end» := ev.t, last := true })).length →
        BaseOK spans ((listModify subs j
          (fun s => { s with «end» := ev.t, last := true })).getD j2 default) := by
      intro j2 h2
      rw [hglen] at h2
      by_cases hje : j2 = j
      · subst hje
        rw [hgj]
        exact hbase j2 h2
      · rw [hgold j2 hje]
        exact hbase j2 h2
    have hc1 : ∀ X : Time, ClosedOK spans
        ⟨listModify subs j (fun s => { s with «end» := ev.t, last := true }),
         alistErase act ev.span, X⟩ := by
      intro X
      unfold ClosedOK
      dsimp only
      intro j2 h2 hnr
      rw [hglen] at h2
      by_cases hje : j2 = j
      · subst hje
        rw [hgj]
        unfold EndOK
        dsimp only
        refine ⟨p, by rw [hspanj]; exact hp, le_trans hpse hevt.ge, hevt.le⟩
      · have hnr0 : ¬ ∃ e ∈ act, e.2 = j2 := by
          rintro ⟨⟨k0, v0⟩, he, hv⟩
          dsimp only at hv
          by_cases hk0 : k0 = ev.span
          · subst hk0
            have := key_unique hkeys he hm
            exact hje (by rw [← hv, this])
          · exact hnr ⟨(k0, v0), (mem_alistErase act ev.span k0 v0).mpr ⟨he, hk0⟩, hv⟩
        rw [hgold j2 hje]
        exact hclosed j2 h2 hnr0
    have hw1 : ∀ X : Time, ActiveWF
        ⟨listModify subs j (fun s => { s with «end» := ev.t, last := true }),
         alistErase act ev.span, X⟩ := by
      intro X
      unfold ActiveWF
      dsimp only
      refine ⟨?_, ?_, ?_⟩
      · exact List.Nodup.sublist (alistErase_keys_sublist act ev.span) hkeys
      · exact List.Nodup.sublist (alistErase_values_sublist act ev.span) hvals
      · intro e he
        obtain ⟨k, v⟩ := e
        rw [hglen]
        exact hbound _ ((mem_alistErase act ev.span k v).mp he).1
    have ha1 : ∀ X : Time, ActiveOK spans
        ⟨listModify subs j (fun s => { s with «end» := ev.t, last := true }),
         alistErase act ev.span, X⟩ rest := by
      intro X
      unfold ActiveOK
      dsimp only
      intro sp2 j2 hm2
      obtain ⟨he2, hne2⟩ := (mem_alistErase act ev.span sp2 j2).mp hm2
      have hj2ne : ¬ j2 = j := by
        intro hc
        subst hc
        exact hne2 (value_unique hvals he2 hm)
      rw [hgold j2 hj2ne]
      obtain ⟨hspan2, p2, hp2, hfilt2⟩ := hact sp2 j2 he2
      refine ⟨hspan2, p2, hp2, ?_⟩
      have hcond : ¬ ((fun e => decide (e.span = sp2)) ev = true) := by
        simp only [decide_eq_true_eq]
        exact fun hc => hne2 hc.symm
      rw [List.filter_cons, if_neg hcond] at hfilt2
      exact hfilt2
    have hi1 : ∀ X : Time, InactiveOK spans
        ⟨listModify subs j (fun s => { s with «end» := ev.t, last := true }),
         alistErase act ev.span, X⟩ rest := by
      intro X
      unfold InactiveOK
      dsimp only
      intro sp2 hnone2
      by_cases hne : sp2 = ev.span
      · subst hne
        left
        exact hfrest
      · have hnone0 : alistGet? act sp2 = none := by
          rw [← alistGet?_alistErase_ne act ev.span sp2 hne]
          exact hnone2
        have hcond : ¬ ((fun e => decide (e.span = sp2)) ev = true) := by
          simp only [decide_eq_true_eq]
          exact fun hc => hne hc.symm
        rcases hinact sp2 hnone0 with hemp2 | ⟨p2, hp2, hpair2⟩
        · left
          rw [List.filter_cons, if_neg hcond] at hemp2
          exact hemp2
        · right
          refine ⟨p2, hp2, ?_⟩
          rw [List.filter_cons, if_neg hcond] at hpair2
          exact hpair2
    have hne0 : ¬ act.length = 0 := by
      intro h0
      rw [List.length_eq_zero] at h0
      subst h0
      exact absurd hm (List.not_mem_nil _)
    simp only [sweepStep, hstart, Bool.false_eq_true, if_false, hg]
    dsimp only
    set PT := if pt = 0 then ev.t else pt with hPT
    split_ifs with hco hz
    · have hne : ¬ rest = [] := by
        intro hrnil
        rw [hrnil] at hco
        simp at hco
      exact ⟨hb1, hc1 _, hw1 _, ha1 _, hi1 _, Or.inr ⟨hne, hPTrest⟩, hsortrest⟩
    · exact absurd hz.1 hne0
    · exact repack_result_inv spans ev.t PT rest _ _ _ _ _
        (List.perm_insertionSort _ _) rfl ⟨hb1, hc1 0, hw1 0, ha1 0⟩ (hi1 0)
        hPTle hrestle hsortrest

/-- Folding the whole event list of a lane takes the invariant down to the
empty event list. -/
theorem sweepEvents_inv (spans : List Span)
    (hspans : ∀ s ∈ spans, s.start ≤ s.«end») :
    ∀ (evs : List SpanEvent) (st : SweepState),
      SweepInv spans st evs → SweepInv spans (sweepEvents spans st evs) [] := by
  intro evs
  induction evs with
  | nil =>
    intro st h
    exact h
  | cons ev rest ih =>
    intro st h
    obtain ⟨subs, act, pt⟩ := st
    exact ih _ (sweepStep_inv spans hspans subs act pt ev rest h)

/-- With no events left, the invariant forces an empty active map, a zero
pack time, and full bounds on every arena entry. -/
theorem sweep_final (spans : List Span) (st : SweepState)
    (h : SweepInv spans st []) :
    st.active = [] ∧ st.packTime = 0 ∧
    (∀ j, j < st.subSpans.length → BaseOK spans (st.subSpans.getD j default)) ∧
    (∀ j, j < st.subSpans.length → EndOK spans (st.subSpans.getD j default)) := by
  obtain ⟨hbase, hclosed, hwf, hact, hinact, hpack, hsorted⟩ := h
  have hactnil : st.active = [] := by
    cases hA : st.active with
    | nil => rfl
    | cons e restA =>
      exfalso
      obtain ⟨k, v⟩ := e
      have hm : (k, v) ∈ st.active := by
        rw [hA]
        exact List.mem_cons_self _ _
      obtain ⟨p, hp, hfilt⟩ := (hact k v hm).2
      simp at hfilt
  have hpt : st.packTime = 0 := by
    rcases hpack with h0 | ⟨hne, _⟩
    · exact h0
    · exact absurd rfl hne
  refine ⟨hactnil, hpt, hbase, ?_⟩
  intro j hj
  refine hclosed j hj ?_
  rintro ⟨e, he, hv⟩
  rw [hactnil] at he
  exact List.not_mem_nil _ he

/-- At the start of a lane, a fully-closed arena together with the sorted
lane events satisfies the invariant. -/
theorem lane_start_inv (spans : List Span)
    (hspans : ∀ s ∈ spans, s.start ≤ s.«end»)
    (subs : List SubSpan)
    (hbase : ∀ j, j < subs.length → BaseOK spans (subs.getD j default))
    (hend : ∀ j, j < subs.length → EndOK spans (subs.getD j default)) (p : Int) :
    SweepInv spans ⟨subs, [], 0⟩
      (List.insertionSort (fun a b => a.t ≤ b.t) (eventsFor spans p)) := by
  refine ⟨hbase, ?_, ?_, ?_, ?_, Or.inl rfl, List.sorted_insertionSort _ _⟩
  · intro j hj _
    exact hend j hj
  · exact ⟨List.nodup_nil, List.nodup_nil, fun e he => absurd he (List.not_mem_nil _)⟩
  · intro sp j hm
    exact absurd hm (List.not_mem_nil _)
  · intro sp _
    exact initial_filter spans hspans p sp

/-- Iterating the per-lane sweep over any lane list keeps the arena fully
bounded, the active map empty and the pack time zero. -/
theorem subindex_fold (spans : List Span)
    (hspans : ∀ s ∈ spans, s.start ≤ s.«end») :
    ∀ (ps : List Int) (subs : List SubSpan),
      (∀ j, j < subs.length → BaseOK spans (subs.getD j default)) →
      (∀ j, j < subs.length → EndOK spans (subs.getD j default)) →
      ∃ subs2 : List SubSpan,
        ps.foldl (fun st p => sweepEvents spans st
          (List.insertionSort (fun a b => a.t ≤ b.t) (eventsFor spans p)))
          ⟨subs, [], 0⟩ = ⟨subs2, [], 0⟩ ∧
        (∀ j, j < subs2.length → BaseOK spans (subs2.getD j default)) ∧
        (∀ j, j < subs2.length → EndOK spans (subs2.getD j default)) := by
  intro ps
  induction ps with
  | nil =>
    intro subs hb he
    exact ⟨subs, rfl, hb, he⟩
  | cons p ps ih =>
    intro subs hb he
    set st1 := sweepEvents spans ⟨subs, [], 0⟩
      (List.insertionSort (fun a b => a.t ≤ b.t) (eventsFor spans p)) with hst1
    have hinv := lane_start_inv spans hspans subs hb he p
    have hfin : SweepInv spans st1 [] := sweepEvents_inv spans hspans _ _ hinv
    obtain ⟨hact, hpt, hb2, he2⟩ := sweep_final spans st1 hfin
    have hsteq : st1 = ⟨st1.subSpans, [], 0⟩ := by
      rw [← hact, ← hpt]
    obtain ⟨subs2, heq, hb3, he3⟩ := ih st1.subSpans hb2 he2
    refine ⟨subs2, ?_, hb3, he3⟩
    rw [List.foldl_cons]
    rw [← hst1, hsteq]
    exact heq

/-- C2: on any input list of spans in which every span satisfies
`start ≤ end`, every `SubSpan` returned by `Subindex` validates against its
parent span — its `[start, end]` lies inside the parent's `[start, end]`,
`subindices ≥ 1` and `subindex < subindices` — so `SubSpan.Validate`
returns `none` (Go `nil`) on every element of the result and the
validation-failure logging branch at the end of `Subindex` is unreachable
under that precondition. -/
theorem subindex_validate (spans : List Span)
    (hspans : ∀ s ∈ spans, s.start ≤ s.«end») :
    ∀ sub ∈ Subindex spans, ∃ p, spans.get? sub.span = some p ∧
      sub.Validate p = none := by
  intro sub hsub
  obtain ⟨subs2, heq, hb, he⟩ := subindex_fold spans hspans (posOrder spans) []
    (fun j hj => absurd hj (by simp)) (fun j hj => absurd hj (by simp))
  simp only [Subindex] at hsub
  rw [heq] at hsub
  dsimp only at hsub
  obtain ⟨j, hj⟩ := List.mem_iff_get?.mp hsub
  have hlt : j < subs2.length := by
    by_contra hge
    rw [List.get?_eq_none.mpr (le_of_not_lt hge)] at hj
    exact Option.noConfusion hj
  have hgd : subs2.getD j default = sub := by
    rw [List.getD_eq_getElem?_getD, ← List.get?_eq_getElem?, hj]
    rfl
  have hbj := hb j hlt
  have hej := he j hlt
  rw [hgd] at hbj hej
  unfold BaseOK at hbj
  unfold EndOK at hej
  obtain ⟨p, hp, hs1, hs2, hs3, hs4⟩ := hbj
  obtain ⟨p2, hp2, he1, he2⟩ := hej
  rw [hp] at hp2
  obtain rfl := Option.some.inj hp2
  refine ⟨p, hp, ?_⟩
  unfold SubSpan.Validate
  rw [if_neg (not_lt.mpr he2), if_neg (not_lt.mpr he1), if_neg (not_lt.mpr hs2),
    if_neg (not_lt.mpr hs1), if_neg (not_lt.mpr hs3), if_neg (not_le.mpr hs4)]

/-! Concrete single-span evaluation backing the C2 witness. -/

theorem subindexW_events :
    List.insertionSort (fun a b => a.t ≤ b.t)
      (eventsFor [(⟨0, 0, ((0:ℚ):Time), ((1:ℚ):Time)⟩ : Span)] 0) =
      [⟨((0:ℚ):Time), true, 0⟩, ⟨((1:ℚ):Time), false, 0⟩] := by
  norm_num [eventsFor, eventsFrom, List.insertionSort, List.orderedInsert,
    WithTop.coe_le_coe]

theorem subindexW_step0 :
    sweepStep [(⟨0, 0, ((0:ℚ):Time), ((1:ℚ):Time)⟩ : Span)] ⟨[], [], 0⟩
      ⟨((0:ℚ):Time), true, 0⟩ (some ((1:ℚ):Time)) =
      ⟨[⟨0, 0, 1, ((0:ℚ):Time), ((1:ℚ):Time), true, false⟩], [(0, 0)],
       ((0:ℚ):Time)⟩ := by
  norm_num [sweepStep, repackLoop, alistGet?, alistSet, alistErase, listModify,
    VisualSlack, List.insertionSort, List.orderedInsert,
    ← WithTop.coe_add, WithTop.coe_lt_coe, WithTop.coe_le_coe, WithTop.coe_eq_coe]

theorem subindexW_step1 :
    sweepStep [(⟨0, 0, ((0:ℚ):Time), ((1:ℚ):Time)⟩ : Span)]
      ⟨[⟨0, 0, 1, ((0:ℚ):Time), ((1:ℚ):Time), true, false⟩], [(0, 0)],
       ((0:ℚ):Time)⟩
      ⟨((1:ℚ):Time), false, 0⟩ none =
      ⟨[⟨0, 0, 1, ((0:ℚ):Time), ((1:ℚ):Time), true, true⟩], [],
       ((0:ℚ):Time)⟩ := by
  norm_num [sweepStep, repackLoop, alistGet?, alistSet, alistErase, listModify,
    VisualSlack, List.insertionSort, List.orderedInsert,
    ← WithTop.coe_add, WithTop.coe_lt_coe, WithTop.coe_le_coe, WithTop.coe_eq_coe]

theorem subindexW_value :
    Subindex [(⟨0, 0, ((0:ℚ):Time), ((1:ℚ):Time)⟩ : Span)] =
      [⟨0, 0, 1, ((0:ℚ):Time), ((1:ℚ):Time), true, true⟩] := by
  have hpos : posOrder [(⟨0, 0, ((0:ℚ):Time), ((1:ℚ):Time)⟩ : Span)] = [0] := by
    norm_num [posOrder]
  unfold Subindex
  rw [hpos]
  show (sweepEvents [(⟨0, 0, ((0:ℚ):Time), ((1:ℚ):Time)⟩ : Span)] ⟨[], [], 0⟩
      (List.insertionSort (fun a b => a.t ≤ b.t)
        (eventsFor [(⟨0, 0, ((0:ℚ):Time), ((1:ℚ):Time)⟩ : Span)] 0))).subSpans = _
  rw [subindexW_events]
  rw [sweepEvents, sweepEvents, sweepEvents]
  simp only [List.head?, Option.map]
  rw [subindexW_step0, subindexW_step1]

theorem subindex_validate_witness :
    SubSpan.Validate ⟨0, 0, 1, ((0:ℚ):Time), ((1:ℚ):Time), true, true⟩
      ⟨0, 0, ((0:ℚ):Time), ((1:ℚ):Time)⟩ = none := by
  obtain ⟨p, hp, hv⟩ := subindex_validate
    [⟨0, 0, ((0:ℚ):Time), ((1:ℚ):Time)⟩]
    (by
      intro s hs
      rw [List.mem_singleton] at hs
      subst hs
      exact WithTop.coe_le_coe.mpr (by norm_num))
    ⟨0, 0, 1, ((0:ℚ):Time), ((1:ℚ):Time), true, true⟩
    (by rw [subindexW_value]; exact List.mem_singleton_self _)
  have h0 : ([(⟨0, 0, ((0:ℚ):Time), ((1:ℚ):Time)⟩ : Span)].get?
      ((⟨0, 0, 1, ((0:ℚ):Time), ((1:ℚ):Time), true, true⟩ : SubSpan)).span) =
      some ⟨0, 0, ((0:ℚ):Time), ((1:ℚ):Time)⟩ := rfl
  rw [h0] at hp
  obtain rfl := Option.some.inj hp
  exact hv
